import Mathlib

/-!
Shallow embedding of the clzw LZW codec, following the pair of cores that the
specification claims cite: the encoder in `src/lzw-enc.c` and the decoder in
`src/lzw.c` (the `lzw_dec_*` functions declared in `src/lzw.h`), with the
constants of `src/lzw.h`: `DICT_SIZE = 1 << 20` and `NODE_NULL = DICT_SIZE`.

Modelling conventions:
* C `unsigned` arithmetic is `Nat` with an explicit `% 2 ^ 32` where the C
  value can wrap (the bit-buffer accumulator); `char` / `unsigned char`
  stores truncate with `% 256` exactly where the C types do.
* The contexts are global objects in the reference drivers, so fields the C
  `lzw_enc_init` / `lzw_dec_init` do not assign (the bit buffer, the byte
  counters, entries of `dict` above 255) start from the zero initialisation
  of a C object with static storage duration.
* The 256-byte staging buffer `buff` plus `lzw_writebuf` only batch the byte
  stream; the model emits bytes directly into an `out` list, which is the
  concatenation the stream callback receives.
* C loops whose bound is not structural carry an explicit fuel argument that
  is at least the number of iterations the C loop can make; the fuel choice
  is commented at each definition.
-/

set_option maxRecDepth 10000

namespace Clzw

/-- Constant `DICT_SIZE` from `lzw.h`: `(1 << 20)`. -/
def DICT_SIZE : Nat := 1 <<< 20

/-- Constant `NODE_NULL` from `lzw.h`: `(DICT_SIZE)`. -/
def NODE_NULL : Nat := DICT_SIZE

/-- Error code `LZW_ERR_DICT_IS_FULL` from `lzw.h`. -/
def LZW_ERR_DICT_IS_FULL : Int := -1

/-- Error code `LZW_ERR_INPUT_BUF` from `lzw.h`. -/
def LZW_ERR_INPUT_BUF : Int := -2

/-- Error code `LZW_ERR_WRONG_CODE` from `lzw.h`. -/
def LZW_ERR_WRONG_CODE : Int := -3

/-- Modulus of the 32-bit `unsigned` bit-buffer accumulator. -/
def U32 : Nat := 2 ^ 32

/-- Write side of `bitbuffer_t` plus the emitted byte stream: fields `bb.buf`,
`bb.n` of the encoder context together with the flattened output of
`ctx->buff` / `lzw_writebuf`. -/
structure BitWriter where
  bbuf : Nat
  bn : Nat
  out : List Nat
deriving Repr, DecidableEq

/-- Loop `while (nbits >= 8) { nbits -= 8; emit(buf >> nbits); }` from
`lzw_enc_writebits`.  The byte store into `unsigned char buff[]` truncates to
`% 256`.  `fuel` bounds the iteration count; since `nbits` drops by 8 each
pass, any `fuel ≥ nbits` is enough, and callers pass `nbits` itself. -/
def wbFlushLoop : Nat → Nat → Nat → List Nat → Nat × List Nat
  | 0, _, nbits, out => (nbits, out)
  | fuel + 1, buf, nbits, out =>
    if 8 ≤ nbits then
      wbFlushLoop fuel buf (nbits - 8) (out ++ [buf >>> (nbits - 8) % 256])
    else
      (nbits, out)

/-- Function `lzw_enc_writebits` of `lzw-enc.c`:
`bb.buf = (bb.buf << nbits) | (bits & ((1 << nbits)-1));` followed by the
whole-byte flush loop; the accumulator is a 32-bit `unsigned`. -/
def lzw_enc_writebits (s : BitWriter) (bits nbits : Nat) : BitWriter :=
  let buf := ((s.bbuf <<< nbits) ||| (bits &&& ((1 <<< nbits) - 1))) % U32
  let r := wbFlushLoop (nbits + s.bn) buf (nbits + s.bn) s.out
  ⟨buf, r.1, r.2⟩

/-- Function `lzw_enc_flushbits` of `lzw-enc.c`:
`if (bb.n & 3) writebits(ctx, 0, 8 - (bb.n & 3));` — note the source uses
`& 3`, not `& 7`. -/
def lzw_enc_flushbits (s : BitWriter) : BitWriter :=
  if s.bn &&& 3 ≠ 0 then lzw_enc_writebits s 0 (8 - (s.bn &&& 3)) else s

/-- Read side of `bitbuffer_t` plus the input buffer bookkeeping of the
decoder context: fields `bb.buf`, `bb.n`, `inbuff`, `lzwn`, `lzwm`. -/
structure BitReader where
  bbuf : Nat
  bn : Nat
  inbuff : List Nat
  lzwn : Nat
  lzwm : Nat
deriving Repr, DecidableEq

/-- Loop body of `lzw_dec_readbits` of `lzw.c`:
`while (bb.n < nbits) { if (lzwn == lzwm) return -1; buf = (buf << 8) | inbuff[lzwn++]; bb.n += 8; }`
then extract `(buf >> (bb.n - nbits)) & ((1 << nbits) - 1)`.
The C input bytes are `unsigned char`, hence the `% 256` on the pulled byte.
`fuel` bounds the number of byte pulls; each pull adds 8 to `bb.n`, so any
`fuel` with `nbits ≤ 8 * fuel + bb.n` suffices, and the wrapper passes
`nbits`.  `none` models the `return -1` EOF result. -/
def readbitsLoop : Nat → BitReader → Nat → Option Nat × BitReader
  | fuel, s, nbits =>
    if s.bn < nbits then
      match fuel with
      | 0 => (none, s)
      | fuel + 1 =>
        if s.lzwn = s.lzwm then
          (none, s)
        else
          readbitsLoop fuel
            { s with
              bbuf := ((s.bbuf <<< 8) ||| (s.inbuff.getD s.lzwn 0 % 256)) % U32,
              bn := s.bn + 8,
              lzwn := s.lzwn + 1 } nbits
    else
      (some ((s.bbuf >>> (s.bn - nbits)) &&& ((1 <<< nbits) - 1)),
       { s with bn := s.bn - nbits })

/-- Function `lzw_dec_readbits` of `lzw.c` (the `lzw.h` decoder). -/
def lzw_dec_readbits (s : BitReader) (nbits : Nat) : Option Nat × BitReader :=
  readbitsLoop nbits s nbits

/-- Reader state over a fresh input buffer, as `lzw_decode_buf` installs it:
`inbuff = buf; lzwn = 0; lzwm = size;` with the bit accumulator preserved
(here: the zero accumulator of a fresh context). -/
def mkReader (bytes : List Nat) : BitReader :=
  ⟨0, 0, bytes, 0, bytes.length⟩

/-- Encoder context `lzw_enc_t` of `lzw.h`: the four `node_enc_t` arrays are
modelled as functions from the code to the field, and `code`, `max`,
`codesize` as in the struct; `bw` groups `bb` with the flattened output. -/
structure EncState where
  dictPrev : Nat → Nat
  dictFirst : Nat → Nat
  dictNext : Nat → Nat
  dictCh : Nat → Nat
  code : Nat
  max : Nat
  codesize : Nat
  bw : BitWriter

/-- Function `lzw_enc_init` of `lzw-enc.c`: entries `0..255` get
`prev = first = next = NODE_NULL`, `ch = i`; entry `NODE_NULL` gets
`prev = first = next = NODE_NULL`; `code = NODE_NULL`, `max = 255`,
`codesize = 8`.  All other fields keep the zero values of the global
context object (`bb = {0,0}`, `lzwn = 0`, other dict entries zero). -/
def lzw_enc_init : EncState where
  dictPrev := fun i => if i < 256 ∨ i = NODE_NULL then NODE_NULL else 0
  dictFirst := fun i => if i < 256 ∨ i = NODE_NULL then NODE_NULL else 0
  dictNext := fun i => if i < 256 ∨ i = NODE_NULL then NODE_NULL else 0
  dictCh := fun i => if i < 256 then i else 0
  code := NODE_NULL
  max := 255
  codesize := 8
  bw := ⟨0, 0, []⟩

/-- Function `lzw_enc_reset` of `lzw-enc.c`: clears `first` for codes
`0..255`, sets `max = 255`, `codesize = 8`. -/
def lzw_enc_reset (s : EncState) : EncState :=
  { s with
    dictFirst := fun i => if i < 256 then NODE_NULL else s.dictFirst i,
    max := 255,
    codesize := 8 }

/-- Loop of `lzw_enc_findstr` of `lzw-enc.c`:
`for (nc = dict[code].first; nc != NODE_NULL; nc = dict[nc].next)` returning
`nc` when `code == dict[nc].prev && c == dict[nc].ch`.  The C loop relies on
the child lists being acyclic; `fuel` bounds the number of followed links
(callers pass `DICT_SIZE + 1`, more than any acyclic list can hold). -/
def findstrLoop (s : EncState) (code c : Nat) : Nat → Nat → Nat
  | _, 0 => NODE_NULL
  | nc, fuel + 1 =>
    if nc = NODE_NULL then NODE_NULL
    else if code = s.dictPrev nc ∧ c = s.dictCh nc then nc
    else findstrLoop s code c (s.dictNext nc) fuel

/-- Function `lzw_enc_findstr` of `lzw-enc.c`. -/
def lzw_enc_findstr (s : EncState) (code c : Nat) : Nat :=
  findstrLoop s code c (s.dictFirst code) (DICT_SIZE + 1)

/-- Function `lzw_enc_addstr` of `lzw-enc.c`: refuses when
`max == NODE_NULL || code == NODE_NULL`; otherwise increments `max`, links
the new node at the head of the child list of `code` and stores the symbol
(`char` store, hence `% 256`).  Returns the pair (C return value, new
state). -/
def lzw_enc_addstr (s : EncState) (code c : Nat) : Nat × EncState :=
  if s.max = NODE_NULL ∨ code = NODE_NULL then (NODE_NULL, s)
  else
    let m := s.max + 1
    (m,
      { s with
        max := m,
        dictPrev := fun j => if j = m then code else s.dictPrev j,
        dictNext := fun j => if j = m then s.dictFirst code else s.dictNext j,
        dictFirst := fun j =>
          if j = code then m
          else if j = m then NODE_NULL
          else s.dictFirst j,
        dictCh := fun j => if j = m then c % 256 else s.dictCh j })

/-- Function `lzw_enc_write` of `lzw-enc.c`: widen first
(`if (max == (1 << codesize)) codesize++;`), then
`writebits(ctx, code, codesize)`. -/
def lzw_enc_write (s : EncState) (code : Nat) : EncState :=
  let s1 := if s.max = (1 <<< s.codesize) then { s with codesize := s.codesize + 1 } else s
  { s1 with bw := lzw_enc_writebits s1.bw code s1.codesize }

/-- Body of the `for` loop of `lzw_encode_buf` of `lzw-enc.c` for one input
byte (the `unsigned char c = buf[i]` read truncates to `% 256`). -/
def lzw_encode_step (s : EncState) (b : Nat) : EncState :=
  let c := b % 256
  let nc := lzw_enc_findstr s s.code c
  if nc = NODE_NULL then
    let s1 := lzw_enc_write s s.code
    let r := lzw_enc_addstr s1 s1.code c
    let s2 := if r.1 = NODE_NULL then lzw_enc_reset r.2 else r.2
    { s2 with code := c }
  else
    { s with code := nc }

/-- Function `lzw_encode_buf` of `lzw-enc.c`; the C function returns `size`,
so only the context evolution is modelled. -/
def lzw_encode_buf (s : EncState) (buf : List Nat) : EncState :=
  buf.foldl lzw_encode_step s

/-- Function `lzw_encode_end` of `lzw-enc.c`: write the last code, flush the
bit buffer, and hand the staged bytes to the stream (already flattened into
`out`). -/
def lzw_encode_end (s : EncState) : EncState :=
  let s1 := lzw_enc_write s s.code
  { s1 with bw := lzw_enc_flushbits s1.bw }

/-- Whole-stream encoder run: `lzw_enc_init`, `lzw_encode_buf` over the
input, `lzw_encode_end`; the result is the produced byte stream. -/
def encodeBytes (buf : List Nat) : List Nat :=
  (lzw_encode_end (lzw_encode_buf lzw_enc_init buf)).bw.out

/-- Decoder context `lzw_dec_t` of `lzw.h`: the `node_dec_t` array as two
functions, plus `code`, `max`, `codesize`, the grouped bit-reader fields and
the first-symbol byte `c`; `out` is the flattened output stream of
`lzw_writebuf`. -/
structure DecState where
  dictPrev : Nat → Nat
  dictCh : Nat → Nat
  code : Nat
  max : Nat
  codesize : Nat
  br : BitReader
  c : Nat
  out : List Nat

/-- Function `lzw_dec_init` of `lzw.c`: entries `0..255` get
`prev = NODE_NULL`, `ch = i`; entry `NODE_NULL` gets `prev = NODE_NULL`;
`code = NODE_NULL`, `max = 255`, `codesize = 8`; remaining fields are the
zero values of the global context object. -/
def lzw_dec_init : DecState where
  dictPrev := fun i => if i < 256 ∨ i = NODE_NULL then NODE_NULL else 0
  dictCh := fun i => if i < 256 then i else 0
  code := NODE_NULL
  max := 255
  codesize := 8
  br := ⟨0, 0, [], 0, 0⟩
  c := 0
  out := []

/-- Loop of `lzw_dec_getstr` of `lzw.c`:
`while (code != NODE_NULL && i) { buff[--i] = dict[code].ch; code = dict[code].prev; }`;
the counter `i` starts at `sizeof(ctx->buff) = DICT_SIZE` and is the
structural bound.  The buffer is filled from the tail, so the collected list
is the string in order. -/
def getstrLoop (s : DecState) : Nat → Nat → List Nat → List Nat
  | _, 0, acc => acc
  | code, i + 1, acc =>
    if code = NODE_NULL then acc
    else getstrLoop s (s.dictPrev code) i (s.dictCh code % 256 :: acc)

/-- Function `lzw_dec_getstr` of `lzw.c`, returning the reconstructed byte
string (the C function returns its length and leaves the bytes in
`ctx->buff`). -/
def lzw_dec_getstr (s : DecState) (code : Nat) : List Nat :=
  getstrLoop s code DICT_SIZE []

/-- Function `lzw_dec_writestr` of `lzw.c`: emits the string of `code` to the
output stream and returns its first symbol (`0` when `code == NODE_NULL`). -/
def lzw_dec_writestr (s : DecState) (code : Nat) : Nat × DecState :=
  if code = NODE_NULL then (0, s)
  else
    let str := lzw_dec_getstr s code
    (str.headD 0, { s with out := s.out ++ str })

/-- Function `lzw_dec_addstr` of `lzw.c`: returns `NODE_NULL` when
`max == NODE_NULL`; returns `c` (no insertion) when `code == NODE_NULL`;
otherwise increments `max` and records `{prev, ch}` (a `char` store). -/
def lzw_dec_addstr (s : DecState) (code c : Nat) : Nat × DecState :=
  if s.max = NODE_NULL then (NODE_NULL, s)
  else if code = NODE_NULL then (c, s)
  else
    let m := s.max + 1
    (m,
      { s with
        max := m,
        dictPrev := fun j => if j = m then code else s.dictPrev j,
        dictCh := fun j => if j = m then c % 256 else s.dictCh j })

/-- Function `lzw_dec_reset` of `lzw.c`: `max = 255; codesize = 8;` then read
one code at the fresh `codesize`; on EOF return, otherwise `codesize++`,
record the symbol as `c` and `code`, and emit it. -/
def lzw_dec_reset (s : DecState) : DecState :=
  let s1 := { s with max := 255, codesize := 8 }
  let r := lzw_dec_readbits s1.br s1.codesize
  match r.1 with
  | none => { s1 with br := r.2 }
  | some nc =>
    { s1 with
      br := r.2,
      codesize := s1.codesize + 1,
      c := nc % 256,
      code := nc,
      out := s1.out ++ [nc % 256] }

/-- Result of one pass of the `for (;;)` loop of `lzw_decode_buf`:
either the loop continues with the new context, or the function returns the
given `int` (error code or processed byte count). -/
inductive DecRes where
  | cont (s : DecState) : DecRes
  | done (r : Int) (s : DecState) : DecRes

/-- Context carried by a `DecRes`, whichever constructor holds it. -/
def DecRes.stateOf : DecRes → DecState
  | .cont s => s
  | .done _ s => s

/-- Body of the `for (;;)` loop of `lzw_decode_buf` of `lzw.c`: read a code;
on EOF return `LZW_ERR_INPUT_BUF` if `lzwn != lzwm` and the processed count
otherwise; for a known code (`nc <= max`) emit its string, insert
`(code, c)`, widen when `max + 1 == 1 << codesize`, reset when
`max == DICT_SIZE - 1`; for `nc - 1 == max` run the K-omega-K branch; else
return `LZW_ERR_WRONG_CODE`.  The final `code = nc` of the C loop applies on
every continuing path, including after a reset. -/
def lzw_decode_step (s : DecState) : DecRes :=
  let r := lzw_dec_readbits s.br s.codesize
  let s1 := { s with br := r.2 }
  match r.1 with
  | none =>
    .done (if s1.br.lzwn ≠ s1.br.lzwm then LZW_ERR_INPUT_BUF else (s1.br.lzwn : Int)) s1
  | some nc =>
    if nc ≤ s1.max then
      let w := lzw_dec_writestr s1 nc
      let s2 := { w.2 with c := w.1 % 256 }
      let a := lzw_dec_addstr s2 s2.code s2.c
      if a.1 = NODE_NULL then .done LZW_ERR_DICT_IS_FULL a.2
      else
        let s3 := a.2
        let s4 := if s3.max + 1 = (1 <<< s3.codesize) then { s3 with codesize := s3.codesize + 1 } else s3
        let s5 := if s4.max = DICT_SIZE - 1 then lzw_dec_reset s4 else s4
        .cont { s5 with code := nc }
    else if nc - 1 = s1.max then
      let a := lzw_dec_addstr s1 s1.code s1.c
      if a.1 = NODE_NULL then .done LZW_ERR_DICT_IS_FULL a.2
      else
        let w := lzw_dec_writestr a.2 nc
        let s3 := { w.2 with c := w.1 % 256 }
        let s4 := if nc + 1 = (1 <<< s3.codesize) then { s3 with codesize := s3.codesize + 1 } else s3
        let s5 := if s4.max = DICT_SIZE - 1 then lzw_dec_reset s4 else s4
        .cont { s5 with code := nc }
    else
      .done LZW_ERR_WRONG_CODE s1

/-- Iterated loop of `lzw_decode_buf`.  Every continuing pass of the C loop
consumes at least one input byte once `codesize ≥ 8` and `bb.n < 8` hold, so
a fuel of `size + bb.n + 2` outruns the C loop; on fuel exhaustion the model
returns the processed count, which the reachable calls never hit. -/
def lzw_decode_loop : Nat → DecState → Int × DecState
  | 0, s => ((s.br.lzwn : Int), s)
  | fuel + 1, s =>
    match lzw_decode_step s with
    | .cont s1 => lzw_decode_loop fuel s1
    | .done r s1 => (r, s1)

/-- Prologue of `lzw_decode_buf` of `lzw.c`:
`ctx->inbuff = buf; ctx->lzwn = 0; ctx->lzwm = size;` keeping the bit
accumulator. -/
def lzw_decode_start (s : DecState) (buf : List Nat) : DecState :=
  { s with br := ⟨s.br.bbuf, s.br.bn, buf, 0, buf.length⟩ }

/-- Function `lzw_decode_buf` of `lzw.c`: `if (!size) return 0;`, install the
buffer, run the loop; the `int` result is the error code or the count of
processed input bytes. -/
def lzw_decode_buf (s : DecState) (buf : List Nat) : Int × DecState :=
  if buf.length = 0 then (0, s)
  else lzw_decode_loop (buf.length + s.br.bn + 2) (lzw_decode_start s buf)

/-- Node record `node_enc_t` of `lzw.h`, for the checked-indexing model. -/
structure NodeEnc where
  prev : Nat
  first : Nat
  next : Nat
  ch : Nat

/-- Checked store into the `dict` array of `lzw_enc_t`: the array has
`DICT_SIZE` elements, so an index `i` is in bounds exactly when
`i < DICT_SIZE`. -/
def dictWriteE (d : Nat → NodeEnc) (i : Nat) (v : NodeEnc) : Option (Nat → NodeEnc) :=
  if i < DICT_SIZE then some (fun j => if j = i then v else d j) else none

/-- Checked-indexing rendition of the dictionary writes of `lzw_enc_init` of
`lzw-enc.c`: the loop writes entries `0..255`, then the function writes
entry `NODE_NULL`.  The result is `none` exactly when some write is out of
bounds for `node_enc_t dict[DICT_SIZE]`. -/
def lzw_enc_init_checked : Option (Nat → NodeEnc) :=
  let d0 := (List.range 256).foldl
    (fun od i => od.bind fun d => dictWriteE d i ⟨NODE_NULL, NODE_NULL, NODE_NULL, i⟩)
    (some (fun _ => ⟨0, 0, 0, 0⟩))
  d0.bind fun d =>
    (dictWriteE d NODE_NULL
      { (d NODE_NULL) with prev := NODE_NULL, first := NODE_NULL, next := NODE_NULL })

/-- Node record `node_dec_t` of `lzw.h`, for the checked-indexing model. -/
structure NodeDec where
  prev : Nat
  ch : Nat

/-- Checked store into the `dict` array of `lzw_dec_t`. -/
def dictWriteD (d : Nat → NodeDec) (i : Nat) (v : NodeDec) : Option (Nat → NodeDec) :=
  if i < DICT_SIZE then some (fun j => if j = i then v else d j) else none

/-- Checked-indexing rendition of the dictionary writes of `lzw_dec_init` of
`lzw.c`: the loop writes entries `0..255`, then the function writes
`dict[NODE_NULL].prev`. -/
def lzw_dec_init_checked : Option (Nat → NodeDec) :=
  let d0 := (List.range 256).foldl
    (fun od i => od.bind fun d => dictWriteD d i ⟨NODE_NULL, i⟩)
    (some (fun _ => ⟨0, 0⟩))
  d0.bind fun d =>
    (dictWriteD d NODE_NULL { (d NODE_NULL) with prev := NODE_NULL })

/-- Value of a byte list read as a base-256 big-endian numeral, the order in
which `lzw_enc_writebits` emits and `lzw_dec_readbits` consumes bytes. -/
def byteVal (l : List Nat) : Nat :=
  l.foldl (fun a b => a * 256 + b) 0

/-- Value of a list of `(code, width)` pairs as one MSB-first bit string. -/
def codesVal (L : List (Nat × Nat)) : Nat :=
  L.foldl (fun a p => a * 2 ^ p.2 + p.1 % 2 ^ p.2) 0

/-- Total width of a list of `(code, width)` pairs. -/
def codesLen (L : List (Nat × Nat)) : Nat :=
  (L.map Prod.snd).sum

/-- Sequence of `lzw_enc_writebits` calls, one per `(code, width)` pair. -/
def writeAll (L : List (Nat × Nat)) (s : BitWriter) : BitWriter :=
  L.foldl (fun s p => lzw_enc_writebits s p.1 p.2) s

/-- Sequence of `lzw_dec_readbits` calls at the given widths, collecting the
codes; `none` as soon as one read hits EOF. -/
def readCodes : List Nat → BitReader → Option (List Nat)
  | [], _ => some []
  | w :: ws, br =>
    match lzw_dec_readbits br w with
    | (some v, br1) => (readCodes ws br1).map (fun vs => v :: vs)
    | (none, _) => none

/-- Invariant of the encoder context at the top of each `lzw_encode_buf`
iteration: `max` within the dictionary and the code width within
`8..MAX_WIDTH` (with `MAX_WIDTH = 20` since `DICT_SIZE = 2 ^ 20`). -/
def EncInv (s : EncState) : Prop :=
  s.max ≤ DICT_SIZE - 1 ∧ 8 ≤ s.codesize ∧ s.codesize ≤ 20

/-- Invariant of the decoder context at the top of each `lzw_decode_buf`
iteration.  The last conjunct records that the initial prefix is only
present together with a fresh dictionary. -/
def DecInv (s : DecState) : Prop :=
  s.max ≤ DICT_SIZE - 2 ∧ 8 ≤ s.codesize ∧ s.codesize ≤ 20 ∧
    (s.code = NODE_NULL → s.max = 255)

instance (s : EncState) : Decidable (EncInv s) := by
  unfold EncInv; infer_instance

instance (s : DecState) : Decidable (DecInv s) := by
  unfold DecInv; infer_instance

/-- Bit length 8·|out| + n of the data a `BitWriter` holds. -/
def wLen (s : BitWriter) : Nat := 8 * s.out.length + s.bn

/-- Numeric value of the data a `BitWriter` holds, read MSB-first: the
emitted bytes followed by the `bn` buffered low bits of the accumulator. -/
def wVal (s : BitWriter) : Nat := byteVal s.out * 2 ^ s.bn + s.bbuf % 2 ^ s.bn

lemma and_mask_eq_mod (x n : Nat) : x &&& ((1 <<< n) - 1) = x % 2 ^ n := by
  rw [Nat.one_shiftLeft, Nat.and_pow_two_sub_one_eq_mod]

lemma shiftLeft_or_eq_add (x y n : Nat) (h : y < 2 ^ n) :
    (x <<< n) ||| y = x * 2 ^ n + y := by
  rw [Nat.shiftLeft_eq, Nat.mul_comm, Nat.mul_add_lt_is_or]
  omega

lemma mod_pow_split (x a b : Nat) :
    x % 2 ^ (a + b) = x % 2 ^ a + 2 ^ a * (x / 2 ^ a % 2 ^ b) := by
  rw [pow_add, Nat.mod_mul]

lemma mod_pow_div (x a b : Nat) : x % 2 ^ (a + b) / 2 ^ a = x / 2 ^ a % 2 ^ b := by
  rw [pow_add]
  exact Nat.mod_mul_right_div_self x (2 ^ a) (2 ^ b)

lemma mod_pow_mod (x a b : Nat) (h : a ≤ b) : x % 2 ^ b % 2 ^ a = x % 2 ^ a :=
  Nat.mod_mod_of_dvd x (pow_dvd_pow 2 h)

lemma pow_le_pow_iff_le (a b : Nat) : 2 ^ a ≤ 2 ^ b ↔ a ≤ b :=
  Nat.pow_le_pow_iff_right (by omega)

lemma byteVal_foldl (a : Nat) (l : List Nat) :
    l.foldl (fun a b => a * 256 + b) a = a * 256 ^ l.length + byteVal l := by
  induction l generalizing a with
  | nil => simp [byteVal]
  | cons b t ih =>
    show List.foldl _ (a * 256 + b) t = _
    rw [ih (a * 256 + b)]
    have hb : byteVal (b :: t) = b * 256 ^ t.length + byteVal t := by
      show List.foldl _ (0 * 256 + b) t = _
      rw [ih (0 * 256 + b)]; ring_nf
    rw [hb]
    simp [List.length_cons]; ring

lemma byteVal_cons (b : Nat) (t : List Nat) :
    byteVal (b :: t) = b * 256 ^ t.length + byteVal t := by
  show List.foldl _ (0 * 256 + b) t = _
  rw [byteVal_foldl]; ring_nf

lemma byteVal_append_one (l : List Nat) (b : Nat) :
    byteVal (l ++ [b]) = byteVal l * 256 + b := by
  unfold byteVal
  rw [List.foldl_append]
  rfl

lemma byteVal_lt (l : List Nat) (h : ∀ b ∈ l, b < 256) :
    byteVal l < 256 ^ l.length := by
  induction l with
  | nil => simp [byteVal]
  | cons b t ih =>
    rw [byteVal_cons]
    have hb : b < 256 := h b (by simp)
    have ht : byteVal t < 256 ^ t.length := ih (fun x hx => h x (by simp [hx]))
    have : b * 256 ^ t.length + byteVal t < (b + 1) * 256 ^ t.length := by
      have := pow_pos (show 0 < 256 by omega) t.length
      nlinarith
    calc b * 256 ^ t.length + byteVal t < (b + 1) * 256 ^ t.length := this
      _ ≤ 256 * 256 ^ t.length := by
          have : b + 1 ≤ 256 := by omega
          exact Nat.mul_le_mul_right _ this
      _ = 256 ^ (t.length + 1) := by ring
      _ = 256 ^ (b :: t).length := by simp

lemma two_pow_eight_pow (k : Nat) : (256 : Nat) ^ k = 2 ^ (8 * k) := by
  have : (256 : Nat) = 2 ^ 8 := by norm_num
  rw [this, ← pow_mul]

lemma wbFlushLoop_spec (fuel : Nat) :
    ∀ buf nbits out, nbits ≤ fuel → (∀ b ∈ out, b < 256) →
    (wbFlushLoop fuel buf nbits out).1 = nbits % 8 ∧
    (∀ b ∈ (wbFlushLoop fuel buf nbits out).2, b < 256) ∧
    (wbFlushLoop fuel buf nbits out).2.length = out.length + nbits / 8 ∧
    byteVal (wbFlushLoop fuel buf nbits out).2 * 2 ^ (nbits % 8) + buf % 2 ^ (nbits % 8)
      = byteVal out * 2 ^ nbits + buf % 2 ^ nbits := by
  induction fuel with
  | zero =>
    intro buf nbits out hf hout
    have h0 : nbits = 0 := by omega
    subst h0
    exact ⟨rfl, hout, by simp [wbFlushLoop], rfl⟩
  | succ fuel ih =>
    intro buf nbits out hf hout
    by_cases h8 : 8 ≤ nbits
    · have hstep : wbFlushLoop (fuel + 1) buf nbits out
          = wbFlushLoop fuel buf (nbits - 8) (out ++ [buf >>> (nbits - 8) % 256]) := by
        simp [wbFlushLoop, h8]
      rw [hstep]
      have hout1 : ∀ b ∈ out ++ [buf >>> (nbits - 8) % 256], b < 256 := by
        intro b hb
        rcases List.mem_append.mp hb with hb | hb
        · exact hout b hb
        · simp at hb; omega
      obtain ⟨e1, e2, e3, e4⟩ := ih buf (nbits - 8) (out ++ [buf >>> (nbits - 8) % 256])
        (by omega) hout1
      have hmod : (nbits - 8) % 8 = nbits % 8 := by omega
      refine ⟨by rw [e1, hmod], e2, by rw [e3]; simp [List.length_append]; omega, ?_⟩
      rw [hmod] at e4
      rw [e4]
      have hb : byteVal (out ++ [buf >>> (nbits - 8) % 256])
          = byteVal out * 256 + buf / 2 ^ (nbits - 8) % 2 ^ 8 := by
        rw [byteVal_append_one, Nat.shiftRight_eq_div_pow]
        norm_num
      have hsplit : buf % 2 ^ nbits
          = buf % 2 ^ (nbits - 8) + 2 ^ (nbits - 8) * (buf / 2 ^ (nbits - 8) % 2 ^ 8) := by
        have h1 := mod_pow_split buf (nbits - 8) 8
        have h2 : nbits - 8 + 8 = nbits := by omega
        rw [h2] at h1
        exact h1
      have hpow : (2 : Nat) ^ nbits = 2 ^ (nbits - 8) * 2 ^ 8 := by
        rw [← pow_add]
        congr 1
        omega
      rw [hb, hsplit, hpow]
      have h256 : (256 : Nat) = 2 ^ 8 := by norm_num
      rw [h256]
      ring
    · have hstep : wbFlushLoop (fuel + 1) buf nbits out = (nbits, out) := by
        simp [wbFlushLoop, h8]
      rw [hstep]
      have hm : nbits % 8 = nbits := Nat.mod_eq_of_lt (by omega)
      rw [hm]
      refine ⟨rfl, hout, by simp; omega, rfl⟩

lemma lzw_enc_writebits_spec (s : BitWriter) (bits w : Nat)
    (hw : w ≤ 24) (hbn : s.bn ≤ 7) (hout : ∀ b ∈ s.out, b < 256) :
    (lzw_enc_writebits s bits w).bn = (w + s.bn) % 8 ∧
    (∀ b ∈ (lzw_enc_writebits s bits w).out, b < 256) ∧
    wLen (lzw_enc_writebits s bits w) = wLen s + w ∧
    wVal (lzw_enc_writebits s bits w) = wVal s * 2 ^ w + bits % 2 ^ w := by
  have hm : bits &&& ((1 <<< w) - 1) = bits % 2 ^ w := and_mask_eq_mod bits w
  have hmlt : bits % 2 ^ w < 2 ^ w := Nat.mod_lt _ (Nat.pos_pow_of_pos w (by omega))
  set buf := ((s.bbuf <<< w) ||| (bits &&& ((1 <<< w) - 1))) % U32 with hbuf
  have hor : (s.bbuf <<< w) ||| (bits &&& ((1 <<< w) - 1))
      = s.bbuf * 2 ^ w + bits % 2 ^ w := by
    rw [hm]; exact shiftLeft_or_eq_add _ _ _ hmlt
  have hbufmod : buf % 2 ^ (w + s.bn) = bits % 2 ^ w + 2 ^ w * (s.bbuf % 2 ^ s.bn) := by
    rw [hbuf, hor]
    have h32 : w + s.bn ≤ 32 := by omega
    rw [show U32 = 2 ^ 32 from rfl, mod_pow_mod _ _ _ h32, mod_pow_split]
    have hA : (s.bbuf * 2 ^ w + bits % 2 ^ w) % 2 ^ w = bits % 2 ^ w := by
      rw [Nat.mul_comm s.bbuf, Nat.mul_add_mod]
      exact Nat.mod_mod_of_dvd _ dvd_rfl
    have hB : (s.bbuf * 2 ^ w + bits % 2 ^ w) / 2 ^ w = s.bbuf := by
      rw [Nat.mul_comm s.bbuf, Nat.mul_add_div (pow_pos (show (0:Nat) < 2 by omega) w),
        Nat.div_eq_of_lt hmlt, Nat.add_zero]
    rw [hA, hB]
  obtain ⟨e1, e2, e3, e4⟩ := wbFlushLoop_spec (w + s.bn) buf (w + s.bn) s.out (le_refl _) hout
  have hres : lzw_enc_writebits s bits w
      = ⟨buf, (wbFlushLoop (w + s.bn) buf (w + s.bn) s.out).1,
          (wbFlushLoop (w + s.bn) buf (w + s.bn) s.out).2⟩ := by
    rw [lzw_enc_writebits]
  refine ⟨by rw [hres]; exact e1, by rw [hres]; exact e2, ?_, ?_⟩
  · rw [wLen, hres]
    simp only
    rw [e3, e1, wLen]
    omega
  · rw [wVal, hres]
    simp only
    rw [e1, e4, hbufmod, wVal]
    have : (2:Nat) ^ (w + s.bn) = 2 ^ s.bn * 2 ^ w := by rw [← pow_add]; ring_nf
    rw [this]
    ring

lemma bn_and_three (n : Nat) : n &&& 3 = n % 4 :=
  Nat.and_pow_two_sub_one_eq_mod n 2

lemma flush_low (s : BitWriter) (hbn : s.bn ≤ 3) (hne : s.bn ≠ 0)
    (hout : ∀ b ∈ s.out, b < 256) :
    byteVal (lzw_enc_flushbits s).out = wVal s * 2 ^ (8 - s.bn) ∧
    8 * (lzw_enc_flushbits s).out.length = wLen s + (8 - s.bn) ∧
    (∀ b ∈ (lzw_enc_flushbits s).out, b < 256) := by
  have hand : s.bn &&& 3 = s.bn := by rw [bn_and_three]; omega
  have hflush : lzw_enc_flushbits s = lzw_enc_writebits s 0 (8 - s.bn) := by
    rw [lzw_enc_flushbits, hand, if_pos hne]
  obtain ⟨e1, e2, e3, e4⟩ := lzw_enc_writebits_spec s 0 (8 - s.bn) (by omega) (by omega) hout
  have hbn0 : (lzw_enc_writebits s 0 (8 - s.bn)).bn = 0 := by
    rw [e1]; omega
  have hz : (0 : Nat) % 2 ^ (8 - s.bn) = 0 := Nat.zero_mod _
  rw [hflush]
  refine ⟨?_, ?_, e2⟩
  · have hv := e4
    rw [hz, Nat.add_zero] at hv
    rw [wVal, hbn0] at hv
    simpa [Nat.mod_one] using hv
  · have hl := e3
    rw [wLen, hbn0, Nat.add_zero] at hl
    omega

lemma flush_high (s : BitWriter) (hbn : s.bn ≤ 7) (h5 : 5 ≤ s.bn)
    (hout : ∀ b ∈ s.out, b < 256) :
    byteVal (lzw_enc_flushbits s).out = wVal s * 2 ^ (8 - s.bn) ∧
    8 * (lzw_enc_flushbits s).out.length = wLen s + (8 - s.bn) ∧
    (∀ b ∈ (lzw_enc_flushbits s).out, b < 256) := by
  have hand : s.bn &&& 3 = s.bn - 4 := by rw [bn_and_three]; omega
  have hne : s.bn &&& 3 ≠ 0 := by omega
  have hpad : 8 - (s.bn &&& 3) = 12 - s.bn := by omega
  have hflush : lzw_enc_flushbits s = lzw_enc_writebits s 0 (12 - s.bn) := by
    rw [lzw_enc_flushbits, if_pos hne, hpad]
  obtain ⟨e1, e2, e3, e4⟩ := lzw_enc_writebits_spec s 0 (12 - s.bn) (by omega) (by omega) hout
  have hbn4 : (lzw_enc_writebits s 0 (12 - s.bn)).bn = 4 := by
    rw [e1]; omega
  have hmod0 : (lzw_enc_writebits s 0 (12 - s.bn)).bbuf % 2 ^ 4 = 0 := by
    have hbb : (lzw_enc_writebits s 0 (12 - s.bn)).bbuf
        = ((s.bbuf <<< (12 - s.bn)) ||| (0 &&& ((1 <<< (12 - s.bn)) - 1))) % U32 := rfl
    rw [hbb, Nat.zero_and, Nat.or_zero, Nat.shiftLeft_eq,
      show U32 = 2 ^ 32 from rfl, mod_pow_mod _ 4 32 (by omega)]
    have hdvd : (2 : Nat) ^ 4 ∣ s.bbuf * 2 ^ (12 - s.bn) :=
      Dvd.dvd.mul_left (pow_dvd_pow 2 (by omega)) s.bbuf
    omega
  rw [hflush]
  have hz : (0 : Nat) % 2 ^ (12 - s.bn) = 0 := Nat.zero_mod _
  rw [hz, Nat.add_zero] at e4
  rw [wVal, hbn4, hmod0, Nat.add_zero] at e4
  have hsplitpow : (2 : Nat) ^ (12 - s.bn) = 2 ^ (8 - s.bn) * 2 ^ 4 := by
    rw [← pow_add]
    congr 1
    omega
  refine ⟨?_, ?_, e2⟩
  · have : byteVal (lzw_enc_writebits s 0 (12 - s.bn)).out * 2 ^ 4
        = wVal s * 2 ^ (8 - s.bn) * 2 ^ 4 := by
      rw [e4, hsplitpow]; ring
    have h16 : (0 : Nat) < 2 ^ 4 := by norm_num
    exact Nat.eq_of_mul_eq_mul_right h16 this
  · have hl := e3
    rw [wLen, hbn4] at hl
    omega

lemma lzw_enc_flushbits_spec (s : BitWriter) (hbn : s.bn ≤ 7)
    (hout : ∀ b ∈ s.out, b < 256) (h4 : s.bn ≠ 4) :
    byteVal (lzw_enc_flushbits s).out = wVal s * 2 ^ ((8 - s.bn) % 8) ∧
    8 * (lzw_enc_flushbits s).out.length = wLen s + (8 - s.bn) % 8 ∧
    (∀ b ∈ (lzw_enc_flushbits s).out, b < 256) := by
  by_cases h0 : s.bn = 0
  · have hid : lzw_enc_flushbits s = s := by
      rw [lzw_enc_flushbits, bn_and_three, h0]
      simp
    rw [hid, h0]
    refine ⟨?_, ?_, hout⟩
    · rw [wVal, h0]
      simp [Nat.mod_one]
    · rw [wLen, h0]
      simp
  · have hm : (8 - s.bn) % 8 = 8 - s.bn := Nat.mod_eq_of_lt (by omega)
    rw [hm]
    by_cases hlo : s.bn ≤ 3
    · exact flush_low s hlo h0 hout
    · exact flush_high s hbn (by omega) hout

lemma codesVal_foldl (L : List (Nat × Nat)) :
    ∀ a : Nat, L.foldl (fun a p => a * 2 ^ p.2 + p.1 % 2 ^ p.2) a
      = a * 2 ^ codesLen L + codesVal L := by
  induction L with
  | nil => intro a; simp [codesLen, codesVal]
  | cons p t ih =>
    intro a
    show List.foldl _ (a * 2 ^ p.2 + p.1 % 2 ^ p.2) t = _
    rw [ih (a * 2 ^ p.2 + p.1 % 2 ^ p.2)]
    have hv : codesVal (p :: t) = p.1 % 2 ^ p.2 * 2 ^ codesLen t + codesVal t := by
      show List.foldl _ (0 * 2 ^ p.2 + p.1 % 2 ^ p.2) t = _
      rw [ih (0 * 2 ^ p.2 + p.1 % 2 ^ p.2)]
      ring_nf
    have hl : codesLen (p :: t) = p.2 + codesLen t := by
      simp [codesLen]
    rw [hv, hl, pow_add]
    ring

lemma codesVal_cons (p : Nat × Nat) (t : List (Nat × Nat)) :
    codesVal (p :: t) = p.1 % 2 ^ p.2 * 2 ^ codesLen t + codesVal t := by
  show List.foldl _ (0 * 2 ^ p.2 + p.1 % 2 ^ p.2) t = _
  rw [codesVal_foldl]
  ring_nf

lemma codesLen_cons (p : Nat × Nat) (t : List (Nat × Nat)) :
    codesLen (p :: t) = p.2 + codesLen t := by
  simp [codesLen]

lemma codesVal_lt (L : List (Nat × Nat)) : codesVal L < 2 ^ codesLen L := by
  induction L with
  | nil => simp [codesVal, codesLen]
  | cons p t ih =>
    rw [codesVal_cons, codesLen_cons, pow_add]
    have h1 : p.1 % 2 ^ p.2 < 2 ^ p.2 := Nat.mod_lt _ (pow_pos (by omega) _)
    have h2 : (0:Nat) < 2 ^ codesLen t := pow_pos (by omega) _
    nlinarith

lemma writeAll_spec (L : List (Nat × Nat)) :
    ∀ s : BitWriter, (∀ p ∈ L, p.2 ≤ 24) → s.bn ≤ 7 → (∀ b ∈ s.out, b < 256) →
    (writeAll L s).bn = (s.bn + codesLen L) % 8 ∧
    (∀ b ∈ (writeAll L s).out, b < 256) ∧
    wLen (writeAll L s) = wLen s + codesLen L ∧
    wVal (writeAll L s) = wVal s * 2 ^ codesLen L + codesVal L := by
  induction L with
  | nil =>
    intro s _ hbn hout
    refine ⟨?_, hout, ?_, ?_⟩
    · simp [writeAll, codesLen]
      omega
    · simp [writeAll, codesLen]
    · simp [writeAll, codesVal, codesLen]
  | cons p t ih =>
    intro s hL hbn hout
    have hw : p.2 ≤ 24 := hL p (by simp)
    obtain ⟨e1, e2, e3, e4⟩ := lzw_enc_writebits_spec s p.1 p.2 hw hbn hout
    have hstep : writeAll (p :: t) s = writeAll t (lzw_enc_writebits s p.1 p.2) := rfl
    have hbn1 : (lzw_enc_writebits s p.1 p.2).bn ≤ 7 := by
      rw [e1]; omega
    obtain ⟨f1, f2, f3, f4⟩ := ih (lzw_enc_writebits s p.1 p.2)
      (fun q hq => hL q (by simp [hq])) hbn1 e2
    rw [hstep]
    refine ⟨?_, f2, ?_, ?_⟩
    · rw [f1, e1, codesLen_cons]
      omega
    · rw [f3, e3, codesLen_cons]
      omega
    · rw [f4, e4, codesVal_cons, codesLen_cons, pow_add]
      ring

/-- Unread byte count `lzwm - lzwn` of a reader. -/
def rRem (br : BitReader) : Nat := br.lzwm - br.lzwn

/-- Numeric value of the unconsumed bits of a reader: the `bn` buffered low
bits of the accumulator followed by the unread input bytes. -/
def rVal (br : BitReader) : Nat :=
  (br.bbuf % 2 ^ br.bn) * 256 ^ rRem br + byteVal (br.inbuff.drop br.lzwn)

/-- Bit length of the unconsumed data of a reader. -/
def rLen (br : BitReader) : Nat := br.bn + 8 * rRem br

/-- Well-formed reader buffer: bytes, with `lzwm` the buffer length and
`lzwn` within it. -/
def rWF (br : BitReader) : Prop :=
  (∀ b ∈ br.inbuff, b < 256) ∧ br.lzwm = br.inbuff.length ∧ br.lzwn ≤ br.lzwm

lemma readbitsLoop_extract (fuel : Nat) (br : BitReader) (w : Nat) (h : ¬ br.bn < w) :
    readbitsLoop fuel br w
      = (some ((br.bbuf >>> (br.bn - w)) &&& ((1 <<< w) - 1)), { br with bn := br.bn - w }) := by
  rw [readbitsLoop.eq_def]
  simp [h]

lemma readbitsLoop_stop (fuel : Nat) (br : BitReader) (w : Nat) (h : br.bn < w)
    (he : br.lzwn = br.lzwm) : readbitsLoop fuel br w = (none, br) := by
  cases fuel with
  | zero => rw [readbitsLoop.eq_def]; simp [h]
  | succ fuel => rw [readbitsLoop.eq_def]; simp [h, he]

lemma readbitsLoop_fuelout (br : BitReader) (w : Nat) (h : br.bn < w) :
    readbitsLoop 0 br w = (none, br) := by
  rw [readbitsLoop.eq_def]; simp [h]

lemma readbitsLoop_pull (fuel : Nat) (br : BitReader) (w : Nat) (h : br.bn < w)
    (hne : ¬ br.lzwn = br.lzwm) :
    readbitsLoop (fuel + 1) br w
      = readbitsLoop fuel
          { br with
            bbuf := ((br.bbuf <<< 8) ||| (br.inbuff.getD br.lzwn 0 % 256)) % U32,
            bn := br.bn + 8,
            lzwn := br.lzwn + 1 } w := by
  conv_lhs => rw [readbitsLoop.eq_def]
  simp [h, hne]

lemma readbitsLoop_some_lt (fuel : Nat) :
    ∀ (br : BitReader) (w v : Nat) (br1 : BitReader),
    readbitsLoop fuel br w = (some v, br1) → v < 2 ^ w := by
  induction fuel with
  | zero =>
    intro br w v br1 hr
    by_cases h : br.bn < w
    · rw [readbitsLoop_fuelout br w h] at hr
      simp at hr
    · rw [readbitsLoop_extract 0 br w h] at hr
      simp at hr
      obtain ⟨hv, -⟩ := hr
      subst hv
      rw [and_mask_eq_mod]
      exact Nat.mod_lt _ (pow_pos (by omega) w)
  | succ fuel ih =>
    intro br w v br1 hr
    by_cases h : br.bn < w
    · by_cases he : br.lzwn = br.lzwm
      · rw [readbitsLoop_stop (fuel + 1) br w h he] at hr
        simp at hr
      · rw [readbitsLoop_pull fuel br w h he] at hr
        exact ih _ w v br1 hr
    · rw [readbitsLoop_extract (fuel + 1) br w h] at hr
      simp at hr
      obtain ⟨hv, -⟩ := hr
      subst hv
      rw [and_mask_eq_mod]
      exact Nat.mod_lt _ (pow_pos (by omega) w)

lemma readbitsLoop_none_eof (fuel : Nat) :
    ∀ (br : BitReader) (w : Nat), w ≤ 8 * fuel + br.bn →
    (readbitsLoop fuel br w).1 = none →
    (readbitsLoop fuel br w).2.lzwn = (readbitsLoop fuel br w).2.lzwm := by
  induction fuel with
  | zero =>
    intro br w hfuel hnone
    by_cases h : br.bn < w
    · omega
    · rw [readbitsLoop_extract 0 br w h] at hnone ⊢
      simp at hnone
  | succ fuel ih =>
    intro br w hfuel hnone
    by_cases h : br.bn < w
    · by_cases he : br.lzwn = br.lzwm
      · rw [readbitsLoop_stop (fuel + 1) br w h he] at hnone ⊢
        exact he
      · rw [readbitsLoop_pull fuel br w h he] at hnone ⊢
        exact ih _ w (by simp; omega) hnone
    · rw [readbitsLoop_extract (fuel + 1) br w h] at hnone
      simp at hnone

lemma lzw_dec_readbits_none_eof (br : BitReader) (w : Nat)
    (hnone : (lzw_dec_readbits br w).1 = none) :
    (lzw_dec_readbits br w).2.lzwn = (lzw_dec_readbits br w).2.lzwm := by
  exact readbitsLoop_none_eof w br w (by omega) hnone

lemma lzw_dec_readbits_some_lt (br : BitReader) (w v : Nat) (br1 : BitReader)
    (h : lzw_dec_readbits br w = (some v, br1)) : v < 2 ^ w :=
  readbitsLoop_some_lt w br w v br1 h

lemma rVal_pull (br : BitReader) (w : Nat) (h : br.bn < w) (hw : w ≤ 24)
    (hne : ¬ br.lzwn = br.lzwm) (hwf : rWF br) :
    rVal { br with
            bbuf := ((br.bbuf <<< 8) ||| (br.inbuff.getD br.lzwn 0 % 256)) % U32,
            bn := br.bn + 8,
            lzwn := br.lzwn + 1 } = rVal br ∧
    rLen { br with
            bbuf := ((br.bbuf <<< 8) ||| (br.inbuff.getD br.lzwn 0 % 256)) % U32,
            bn := br.bn + 8,
            lzwn := br.lzwn + 1 } = rLen br := by
  obtain ⟨hbytes, hlen, hle⟩ := hwf
  have hlt : br.lzwn < br.inbuff.length := by omega
  have hbget : br.inbuff.getD br.lzwn 0 = br.inbuff[br.lzwn] :=
    List.getD_eq_getElem br.inbuff 0 hlt
  have hblt : br.inbuff.getD br.lzwn 0 < 256 := by
    rw [hbget]
    exact hbytes _ (List.getElem_mem hlt)
  have hb256 : br.inbuff.getD br.lzwn 0 % 256 = br.inbuff.getD br.lzwn 0 :=
    Nat.mod_eq_of_lt hblt
  have hdrop : br.inbuff.drop br.lzwn = br.inbuff[br.lzwn] :: br.inbuff.drop (br.lzwn + 1) :=
    List.drop_eq_getElem_cons hlt
  have hbuf2 : (((br.bbuf <<< 8) ||| (br.inbuff.getD br.lzwn 0 % 256)) % U32) % 2 ^ (br.bn + 8)
      = br.inbuff.getD br.lzwn 0 % 256 + 2 ^ 8 * (br.bbuf % 2 ^ br.bn) := by
    have hor : (br.bbuf <<< 8) ||| (br.inbuff.getD br.lzwn 0 % 256)
        = br.bbuf * 2 ^ 8 + br.inbuff.getD br.lzwn 0 % 256 :=
      shiftLeft_or_eq_add _ _ _ (by omega)
    rw [hor, show U32 = 2 ^ 32 from rfl, mod_pow_mod _ _ _ (by omega)]
    have h8bn : br.bn + 8 = 8 + br.bn := by omega
    rw [h8bn, mod_pow_split]
    have hA : (br.bbuf * 2 ^ 8 + br.inbuff.getD br.lzwn 0 % 256) % 2 ^ 8
        = br.inbuff.getD br.lzwn 0 % 256 := by
      rw [Nat.mul_comm br.bbuf, Nat.mul_add_mod]
      exact Nat.mod_mod_of_dvd _ dvd_rfl
    have hB : (br.bbuf * 2 ^ 8 + br.inbuff.getD br.lzwn 0 % 256) / 2 ^ 8 = br.bbuf := by
      rw [Nat.mul_comm br.bbuf, Nat.mul_add_div (pow_pos (by omega) 8),
        Nat.div_eq_of_lt (by omega), Nat.add_zero]
    rw [hA, hB]
  have hbytecons : byteVal (br.inbuff.drop br.lzwn)
      = br.inbuff.getD br.lzwn 0 * 256 ^ (br.inbuff.drop (br.lzwn + 1)).length
        + byteVal (br.inbuff.drop (br.lzwn + 1)) := by
    conv_lhs => rw [hdrop]
    rw [byteVal_cons, hbget]
  have hlendrop : (br.inbuff.drop (br.lzwn + 1)).length = br.lzwm - (br.lzwn + 1) := by
    rw [List.length_drop]
    omega
  constructor
  · show (((br.bbuf <<< 8) ||| (br.inbuff.getD br.lzwn 0 % 256)) % U32) % 2 ^ (br.bn + 8)
        * 256 ^ (br.lzwm - (br.lzwn + 1)) + byteVal (br.inbuff.drop (br.lzwn + 1))
        = rVal br
    have hremeq : rRem br = (br.lzwm - (br.lzwn + 1)) + 1 := by
      rw [rRem]
      omega
    rw [rVal, hbuf2, hb256, hbytecons, hlendrop, hremeq, pow_succ]
    have h2568 : (256 : Nat) = 2 ^ 8 := by norm_num
    rw [h2568]
    ring
  · show (br.bn + 8) + 8 * (br.lzwm - (br.lzwn + 1)) = rLen br
    rw [rLen, rRem]
    omega

lemma readbitsLoop_extract_spec (fuel : Nat) (br : BitReader) (w : Nat)
    (h : ¬ br.bn < w) (hwf : rWF br) :
    ∃ br1, readbitsLoop fuel br w = (some (rVal br / 2 ^ (rLen br - w)), br1) ∧
      br1.bn = br.bn - w ∧ rWF br1 ∧
      rVal br1 = rVal br % 2 ^ (rLen br - w) ∧ rLen br1 = rLen br - w := by
  push_neg at h
  obtain ⟨hbytes, hlen, hle⟩ := hwf
  have hbv : byteVal (br.inbuff.drop br.lzwn) < 2 ^ (8 * rRem br) := by
    rw [← two_pow_eight_pow]
    have hb := byteVal_lt (br.inbuff.drop br.lzwn)
      (fun x hx => hbytes x (List.mem_of_mem_drop hx))
    rw [List.length_drop] at hb
    have hre : br.inbuff.length - br.lzwn = rRem br := by
      rw [rRem]
      omega
    rw [hre] at hb
    exact hb
  have hA : ((br.bbuf % 2 ^ br.bn) * 2 ^ (8 * rRem br)
      + byteVal (br.inbuff.drop br.lzwn)) % 2 ^ (8 * rRem br)
      = byteVal (br.inbuff.drop br.lzwn) := by
    rw [Nat.mul_comm (br.bbuf % 2 ^ br.bn), Nat.mul_add_mod]
    exact Nat.mod_eq_of_lt hbv
  have hB : ((br.bbuf % 2 ^ br.bn) * 2 ^ (8 * rRem br)
      + byteVal (br.inbuff.drop br.lzwn)) / 2 ^ (8 * rRem br)
      = br.bbuf % 2 ^ br.bn := by
    rw [Nat.mul_comm (br.bbuf % 2 ^ br.bn), Nat.mul_add_div (pow_pos (by omega) _),
      Nat.div_eq_of_lt hbv, Nat.add_zero]
  refine ⟨{ br with bn := br.bn - w }, ?_, by simp, ⟨hbytes, hlen, hle⟩, ?_, ?_⟩
  · rw [readbitsLoop_extract fuel br w (by omega)]
    congr 2
    rw [and_mask_eq_mod, Nat.shiftRight_eq_div_pow]
    rw [rVal, rLen, two_pow_eight_pow]
    have hsplit : br.bn + 8 * rRem br - w = 8 * rRem br + (br.bn - w) := by omega
    rw [hsplit, pow_add, ← Nat.div_div_eq_div_mul]
    rw [← two_pow_eight_pow, two_pow_eight_pow] at hB
    rw [hB]
    have hfin := mod_pow_div br.bbuf (br.bn - w) w
    have hbn2 : br.bn - w + w = br.bn := by omega
    rw [hbn2] at hfin
    exact hfin.symm
  · show (br.bbuf % 2 ^ (br.bn - w)) * 256 ^ rRem br + byteVal (br.inbuff.drop br.lzwn)
        = rVal br % 2 ^ (rLen br - w)
    rw [rVal, rLen, two_pow_eight_pow]
    have hsplit : br.bn + 8 * rRem br - w = 8 * rRem br + (br.bn - w) := by omega
    rw [hsplit, pow_add, Nat.mod_mul, hA, hB]
    have hmm : br.bbuf % 2 ^ br.bn % 2 ^ (br.bn - w) = br.bbuf % 2 ^ (br.bn - w) :=
      mod_pow_mod _ _ _ (by omega)
    rw [hmm]
    ring
  · show (br.bn - w) + 8 * rRem br = rLen br - w
    rw [rLen]
    omega

lemma readbitsLoop_spec (fuel : Nat) :
    ∀ (br : BitReader) (w : Nat), w ≤ 24 → br.bn ≤ w + 7 → w ≤ 8 * fuel + br.bn →
    rWF br →
    (rLen br < w → (readbitsLoop fuel br w).1 = none) ∧
    (w ≤ rLen br → ∃ br1, readbitsLoop fuel br w = (some (rVal br / 2 ^ (rLen br - w)), br1) ∧
      br1.bn ≤ 7 ∧ rWF br1 ∧
      rVal br1 = rVal br % 2 ^ (rLen br - w) ∧ rLen br1 = rLen br - w) := by
  induction fuel with
  | zero =>
    intro br w hw hbn hfuel hwf
    by_cases h : br.bn < w
    · constructor
      · intro _; rw [readbitsLoop_fuelout br w h]
      · intro _; omega
    · constructor
      · intro hlt
        exfalso
        rw [rLen] at hlt
        omega
      · intro hge
        obtain ⟨br1, e1, e2, e3, e4, e5⟩ := readbitsLoop_extract_spec 0 br w h hwf
        exact ⟨br1, e1, by omega, e3, e4, e5⟩
  | succ fuel ih =>
    intro br w hw hbn hfuel hwf
    by_cases h : br.bn < w
    · by_cases he : br.lzwn = br.lzwm
      · have hrem0 : rRem br = 0 := by rw [rRem]; omega
        constructor
        · intro _; rw [readbitsLoop_stop (fuel + 1) br w h he]
        · intro hge
          exfalso
          rw [rLen, hrem0] at hge
          omega
      · have hpull := rVal_pull br w h hw he hwf
        set br2 : BitReader :=
          { br with
            bbuf := ((br.bbuf <<< 8) ||| (br.inbuff.getD br.lzwn 0 % 256)) % U32,
            bn := br.bn + 8,
            lzwn := br.lzwn + 1 } with hbr2
        have hstep : readbitsLoop (fuel + 1) br w = readbitsLoop fuel br2 w :=
          readbitsLoop_pull fuel br w h he
        have hwf2 : rWF br2 := by
          obtain ⟨hbytes, hlen, hle⟩ := hwf
          refine ⟨hbytes, hlen, ?_⟩
          simp [hbr2]
          omega
        obtain ⟨ih1, ih2⟩ := ih br2 w hw (by simp [hbr2]; omega) (by simp [hbr2]; omega) hwf2
        rw [hstep, ← hpull.1, ← hpull.2]
        exact ⟨ih1, ih2⟩
    · constructor
      · intro hlt
        exfalso
        rw [rLen] at hlt
        omega
      · intro hge
        obtain ⟨br1, e1, e2, e3, e4, e5⟩ := readbitsLoop_extract_spec (fuel + 1) br w h hwf
        exact ⟨br1, e1, by omega, e3, e4, e5⟩

lemma lzw_dec_readbits_spec (br : BitReader) (w : Nat) (hw : w ≤ 24) (hbn : br.bn ≤ 7)
    (hwf : rWF br) :
    (rLen br < w → (lzw_dec_readbits br w).1 = none) ∧
    (w ≤ rLen br → ∃ br1, lzw_dec_readbits br w = (some (rVal br / 2 ^ (rLen br - w)), br1) ∧
      br1.bn ≤ 7 ∧ rWF br1 ∧
      rVal br1 = rVal br % 2 ^ (rLen br - w) ∧ rLen br1 = rLen br - w) :=
  readbitsLoop_spec w br w hw (by omega) (by omega) hwf

lemma readCodes_spec (L : List (Nat × Nat)) :
    ∀ (br : BitReader) (z : Nat), z ≤ 7 →
    (∀ p ∈ L, 1 ≤ p.2 ∧ p.2 ≤ 24 ∧ p.1 < 2 ^ p.2) →
    br.bn ≤ 7 → rWF br →
    rVal br = codesVal L * 2 ^ z → rLen br = codesLen L + z →
    readCodes (L.map Prod.snd) br = some (L.map Prod.fst) := by
  induction L with
  | nil =>
    intro br z _ _ _ _ _ _
    simp [readCodes]
  | cons p t ih =>
    intro br z hz hL hbn hwf hv hl
    obtain ⟨hp1, hp2, hp3⟩ := hL p (by simp)
    have hlen : rLen br = p.2 + (codesLen t + z) := by
      rw [hl, codesLen_cons]
      omega
    have hwle : p.2 ≤ rLen br := by omega
    obtain ⟨-, hsome⟩ := lzw_dec_readbits_spec br p.2 hp2 hbn hwf
    obtain ⟨br1, hread, hbn1, hwf1, hv1, hl1⟩ := hsome hwle
    have hvsplit : rVal br = p.1 * 2 ^ (codesLen t + z) + codesVal t * 2 ^ z := by
      rw [hv, codesVal_cons]
      rw [Nat.mod_eq_of_lt hp3, pow_add]
      ring
    have hrest_lt : codesVal t * 2 ^ z < 2 ^ (codesLen t + z) := by
      rw [pow_add]
      exact Nat.mul_lt_mul_of_lt_of_le (codesVal_lt t) (le_refl _) (pow_pos (by omega) z)
    have hsub : rLen br - p.2 = codesLen t + z := by omega
    have hvdiv : rVal br / 2 ^ (rLen br - p.2) = p.1 := by
      rw [hsub, hvsplit, Nat.mul_comm p.1, Nat.mul_add_div (pow_pos (by omega) _),
        Nat.div_eq_of_lt hrest_lt, Nat.add_zero]
    have hvmod : rVal br % 2 ^ (rLen br - p.2) = codesVal t * 2 ^ z := by
      rw [hsub, hvsplit, Nat.mul_comm p.1, Nat.mul_add_mod]
      exact Nat.mod_eq_of_lt hrest_lt
    have hmapcons : (p :: t).map Prod.snd = p.2 :: t.map Prod.snd := rfl
    rw [hmapcons, readCodes, hread, hvdiv]
    show (readCodes (t.map Prod.snd) br1).map (fun vs => p.1 :: vs)
        = some ((p :: t).map Prod.fst)
    have hih := ih br1 z hz (fun q hq => hL q (by simp [hq])) hbn1 hwf1
      (by rw [hv1, hvmod]) (by rw [hl1]; omega)
    rw [hih]
    rfl

/-- Status of the written stream after `writeAll` and `lzw_enc_flushbits`
from the fresh bit buffer, when the total width is not 4 mod 8: the byte
stream carries the codes, zero padded to a whole byte. -/
lemma encode_stream_spec (L : List (Nat × Nat))
    (hL : ∀ p ∈ L, p.2 ≤ 24) (hs : codesLen L % 8 ≠ 4) :
    byteVal (lzw_enc_flushbits (writeAll L ⟨0, 0, []⟩)).out
        = codesVal L * 2 ^ ((8 - codesLen L % 8) % 8) ∧
    8 * (lzw_enc_flushbits (writeAll L ⟨0, 0, []⟩)).out.length
        = codesLen L + (8 - codesLen L % 8) % 8 ∧
    (∀ b ∈ (lzw_enc_flushbits (writeAll L ⟨0, 0, []⟩)).out, b < 256) := by
  obtain ⟨e1, e2, e3, e4⟩ := writeAll_spec L ⟨0, 0, []⟩ hL (by simp) (by simp)
  have hbn : (writeAll L ⟨0, 0, []⟩).bn = codesLen L % 8 := by
    rw [e1]
    simp
  have hv0 : wVal (⟨0, 0, []⟩ : BitWriter) = 0 := by
    simp [wVal, byteVal]
  have hl0 : wLen (⟨0, 0, []⟩ : BitWriter) = 0 := by
    simp [wLen]
  have hv : wVal (writeAll L ⟨0, 0, []⟩) = codesVal L := by
    rw [e4, hv0]
    ring
  have hl : wLen (writeAll L ⟨0, 0, []⟩) = codesLen L := by
    rw [e3, hl0]
    omega
  obtain ⟨f1, f2, f3⟩ := lzw_enc_flushbits_spec (writeAll L ⟨0, 0, []⟩)
    (by rw [hbn]; omega) e2 (by rw [hbn]; exact hs)
  rw [hbn, hv] at f1
  rw [hbn, hl] at f2
  exact ⟨f1, f2, f3⟩

lemma DICT_SIZE_eq : DICT_SIZE = 1048576 := by decide

lemma NODE_NULL_eq : NODE_NULL = 1048576 := by decide

lemma one_shiftLeft_eq_pow (n : Nat) : 1 <<< n = 2 ^ n := Nat.one_shiftLeft n

lemma codesize_le_19 (c : Nat) (h : 2 ^ c ≤ DICT_SIZE - 1) : c ≤ 19 := by
  by_contra hc
  push_neg at hc
  have h20 : (2 : Nat) ^ 20 ≤ 2 ^ c := (pow_le_pow_iff_le 20 c).mpr (by omega)
  have hn : (2 : Nat) ^ 20 = 1048576 := by norm_num
  rw [DICT_SIZE_eq] at h
  omega

lemma codesize_le_20_of_le (c : Nat) (h : 2 ^ c ≤ DICT_SIZE) : c ≤ 20 := by
  by_contra hc
  push_neg at hc
  have h21 : (2 : Nat) ^ 21 ≤ 2 ^ c := (pow_le_pow_iff_le 21 c).mpr (by omega)
  have hn : (2 : Nat) ^ 21 = 2097152 := by norm_num
  rw [DICT_SIZE_eq] at h
  omega

lemma two_pow_ne_257 (c : Nat) : 2 ^ c ≠ 257 := by
  intro h
  rcases le_or_lt c 8 with hle | hgt
  · have hb : (2 : Nat) ^ c ≤ 2 ^ 8 := (pow_le_pow_iff_le c 8).mpr hle
    have : (2 : Nat) ^ 8 = 256 := by norm_num
    omega
  · have hb : (2 : Nat) ^ 9 ≤ 2 ^ c := (pow_le_pow_iff_le 9 c).mpr hgt
    have h9 : (2 : Nat) ^ 9 = 512 := by norm_num
    have h8 : (2 : Nat) ^ c = 257 := h
    omega

lemma lzw_enc_write_max (s : EncState) (code : Nat) :
    (lzw_enc_write s code).max = s.max := by
  simp only [lzw_enc_write]
  split <;> rfl

lemma lzw_enc_write_code (s : EncState) (code : Nat) :
    (lzw_enc_write s code).code = s.code := by
  simp only [lzw_enc_write]
  split <;> rfl

lemma lzw_enc_write_codesize (s : EncState) (code : Nat) :
    (lzw_enc_write s code).codesize
      = if s.max = 1 <<< s.codesize then s.codesize + 1 else s.codesize := by
  simp only [lzw_enc_write]
  split <;> rfl

lemma lzw_enc_write_codesize_le (s : EncState) (code : Nat) (h : EncInv s) :
    (lzw_enc_write s code).codesize ≤ 20 := by
  obtain ⟨hmax, h8, h20⟩ := h
  rw [lzw_enc_write_codesize]
  split
  · rename_i heq
    rw [one_shiftLeft_eq_pow] at heq
    have : s.codesize ≤ 19 := codesize_le_19 s.codesize (by omega)
    omega
  · exact h20

lemma lzw_enc_write_codesize_ge (s : EncState) (code : Nat) :
    s.codesize ≤ (lzw_enc_write s code).codesize := by
  rw [lzw_enc_write_codesize]
  split <;> omega

lemma lzw_enc_addstr_fst (s : EncState) (code c : Nat) :
    (lzw_enc_addstr s code c).1
      = if s.max = NODE_NULL ∨ code = NODE_NULL then NODE_NULL else s.max + 1 := by
  simp only [lzw_enc_addstr]
  split <;> rfl

lemma lzw_enc_addstr_snd_max (s : EncState) (code c : Nat) :
    (lzw_enc_addstr s code c).2.max
      = if s.max = NODE_NULL ∨ code = NODE_NULL then s.max else s.max + 1 := by
  simp only [lzw_enc_addstr]
  split <;> rfl

lemma lzw_enc_addstr_snd_codesize (s : EncState) (code c : Nat) :
    (lzw_enc_addstr s code c).2.codesize = s.codesize := by
  simp only [lzw_enc_addstr]
  split <;> rfl

lemma lzw_enc_reset_max (s : EncState) : (lzw_enc_reset s).max = 255 := rfl

lemma lzw_enc_reset_codesize (s : EncState) : (lzw_enc_reset s).codesize = 8 := rfl

lemma lzw_encode_step_inv (s : EncState) (b : Nat) (h : EncInv s) :
    EncInv (lzw_encode_step s b) := by
  obtain ⟨hmax, h8, h20⟩ := h
  by_cases hnc : lzw_enc_findstr s s.code (b % 256) = NODE_NULL
  · simp only [lzw_encode_step]
    rw [if_pos hnc]
    set s1 := lzw_enc_write s s.code with hs1
    have hs1max : s1.max = s.max := lzw_enc_write_max s s.code
    have hs1cs : s1.codesize ≤ 20 := lzw_enc_write_codesize_le s s.code ⟨hmax, h8, h20⟩
    have hs1cs8 : 8 ≤ s1.codesize := le_trans h8 (lzw_enc_write_codesize_ge s s.code)
    by_cases haf : (lzw_enc_addstr s1 s1.code (b % 256)).1 = NODE_NULL
    · rw [if_pos haf]
      refine ⟨?_, ?_, ?_⟩
      · show (255 : Nat) ≤ DICT_SIZE - 1
        rw [DICT_SIZE_eq]
        omega
      · exact le_refl 8
      · show (8 : Nat) ≤ 20
        omega
    · rw [if_neg haf]
      rw [lzw_enc_addstr_fst] at haf
      have hguard : ¬ (s1.max = NODE_NULL ∨ s1.code = NODE_NULL) := by
        intro hg
        rw [if_pos hg] at haf
        exact haf rfl
      rw [if_neg hguard] at haf
      refine ⟨?_, ?_, ?_⟩
      · show (lzw_enc_addstr s1 s1.code (b % 256)).2.max ≤ DICT_SIZE - 1
        rw [lzw_enc_addstr_snd_max, if_neg hguard, hs1max]
        rw [hs1max] at haf
        rw [DICT_SIZE_eq] at hmax ⊢
        rw [NODE_NULL_eq] at haf
        omega
      · show 8 ≤ (lzw_enc_addstr s1 s1.code (b % 256)).2.codesize
        rw [lzw_enc_addstr_snd_codesize]
        exact hs1cs8
      · show (lzw_enc_addstr s1 s1.code (b % 256)).2.codesize ≤ 20
        rw [lzw_enc_addstr_snd_codesize]
        exact hs1cs
  · simp only [lzw_encode_step]
    rw [if_neg hnc]
    exact ⟨hmax, h8, h20⟩

lemma lzw_encode_step_mono (s : EncState) (b : Nat) :
    s.codesize ≤ (lzw_encode_step s b).codesize ∨
      ((lzw_encode_step s b).max = 255 ∧ (lzw_encode_step s b).codesize = 8) := by
  by_cases hnc : lzw_enc_findstr s s.code (b % 256) = NODE_NULL
  · simp only [lzw_encode_step]
    rw [if_pos hnc]
    set s1 := lzw_enc_write s s.code with hs1
    by_cases haf : (lzw_enc_addstr s1 s1.code (b % 256)).1 = NODE_NULL
    · rw [if_pos haf]
      right
      exact ⟨lzw_enc_reset_max (lzw_enc_addstr s1 s1.code (b % 256)).2,
        lzw_enc_reset_codesize (lzw_enc_addstr s1 s1.code (b % 256)).2⟩
    · rw [if_neg haf]
      left
      show s.codesize ≤ (lzw_enc_addstr s1 s1.code (b % 256)).2.codesize
      rw [lzw_enc_addstr_snd_codesize]
      exact lzw_enc_write_codesize_ge s s.code
  · simp only [lzw_encode_step]
    rw [if_neg hnc]
    left
    exact le_refl _

@[simp] lemma lzw_dec_writestr_snd_max (s : DecState) (code : Nat) :
    (lzw_dec_writestr s code).2.max = s.max := by
  simp only [lzw_dec_writestr]
  split <;> rfl

@[simp] lemma lzw_dec_writestr_snd_codesize (s : DecState) (code : Nat) :
    (lzw_dec_writestr s code).2.codesize = s.codesize := by
  simp only [lzw_dec_writestr]
  split <;> rfl

@[simp] lemma lzw_dec_writestr_snd_code (s : DecState) (code : Nat) :
    (lzw_dec_writestr s code).2.code = s.code := by
  simp only [lzw_dec_writestr]
  split <;> rfl

@[simp] lemma lzw_dec_writestr_snd_c (s : DecState) (code : Nat) :
    (lzw_dec_writestr s code).2.c = s.c := by
  simp only [lzw_dec_writestr]
  split <;> rfl

@[simp] lemma lzw_dec_writestr_snd_br (s : DecState) (code : Nat) :
    (lzw_dec_writestr s code).2.br = s.br := by
  simp only [lzw_dec_writestr]
  split <;> rfl

lemma lzw_dec_addstr_fst (s : DecState) (code c : Nat) :
    (lzw_dec_addstr s code c).1
      = if s.max = NODE_NULL then NODE_NULL else if code = NODE_NULL then c else s.max + 1 := by
  simp only [lzw_dec_addstr]
  split
  · rfl
  · split
    · rfl
    · rfl

lemma lzw_dec_addstr_snd_max (s : DecState) (code c : Nat) :
    (lzw_dec_addstr s code c).2.max
      = if s.max = NODE_NULL then s.max else if code = NODE_NULL then s.max else s.max + 1 := by
  simp only [lzw_dec_addstr]
  split
  · rfl
  · split
    · rfl
    · rfl

@[simp] lemma lzw_dec_addstr_snd_codesize (s : DecState) (code c : Nat) :
    (lzw_dec_addstr s code c).2.codesize = s.codesize := by
  simp only [lzw_dec_addstr]
  split
  · rfl
  · split
    · rfl
    · rfl

@[simp] lemma lzw_dec_addstr_snd_code (s : DecState) (code c : Nat) :
    (lzw_dec_addstr s code c).2.code = s.code := by
  simp only [lzw_dec_addstr]
  split
  · rfl
  · split
    · rfl
    · rfl

@[simp] lemma lzw_dec_addstr_snd_c (s : DecState) (code c : Nat) :
    (lzw_dec_addstr s code c).2.c = s.c := by
  simp only [lzw_dec_addstr]
  split
  · rfl
  · split
    · rfl
    · rfl

@[simp] lemma lzw_dec_addstr_snd_br (s : DecState) (code c : Nat) :
    (lzw_dec_addstr s code c).2.br = s.br := by
  simp only [lzw_dec_addstr]
  split
  · rfl
  · split
    · rfl
    · rfl

@[simp] lemma lzw_dec_addstr_snd_out (s : DecState) (code c : Nat) :
    (lzw_dec_addstr s code c).2.out = s.out := by
  simp only [lzw_dec_addstr]
  split
  · rfl
  · split
    · rfl
    · rfl

lemma lzw_dec_reset_max (s : DecState) : (lzw_dec_reset s).max = 255 := by
  simp only [lzw_dec_reset]
  split <;> rfl

lemma lzw_dec_reset_codesize (s : DecState) :
    (lzw_dec_reset s).codesize = 8 ∨ (lzw_dec_reset s).codesize = 9 := by
  simp only [lzw_dec_reset]
  split
  · left; rfl
  · right; rfl


lemma mod256_ne_NODE_NULL (x : Nat) : x % 256 ≠ NODE_NULL := by
  have := Nat.mod_lt x (show 0 < 256 by omega)
  rw [NODE_NULL_eq]
  omega

lemma lzw_dec_reset_codesize_bounds (s : DecState) :
    8 ≤ (lzw_dec_reset s).codesize ∧ (lzw_dec_reset s).codesize ≤ 20 := by
  rcases lzw_dec_reset_codesize s with hh | hh <;> omega

lemma lzw_decode_step_inv (s : DecState) (h : DecInv s) :
    ∀ s1, lzw_decode_step s = .cont s1 → DecInv s1 := by
  obtain ⟨hmax, h8, h20, hcodeimp⟩ := h
  intro s1 hc
  rcases hr : lzw_dec_readbits s.br s.codesize with ⟨ro, br1⟩
  cases ro with
  | none =>
    simp only [lzw_decode_step, hr] at hc
    exact DecRes.noConfusion hc
  | some nc =>
    have hncNN : nc < NODE_NULL := by
      have hlt : nc < 2 ^ s.codesize := lzw_dec_readbits_some_lt s.br s.codesize nc br1 hr
      have hle : (2:Nat) ^ s.codesize ≤ 2 ^ 20 := (pow_le_pow_iff_le _ _).mpr h20
      have h220 : (2:Nat) ^ 20 = 1048576 := by norm_num
      rw [NODE_NULL_eq]
      omega
    have hmaxne : s.max ≠ NODE_NULL := by
      rw [NODE_NULL_eq]
      rw [DICT_SIZE_eq] at hmax
      omega
    have hne1 : ¬ s.max + 1 = NODE_NULL := by
      rw [NODE_NULL_eq]
      rw [DICT_SIZE_eq] at hmax
      omega
    simp only [lzw_decode_step, hr] at hc
    by_cases h1 : nc ≤ s.max
    · rw [if_pos h1] at hc
      simp only [lzw_dec_writestr_snd_max, lzw_dec_writestr_snd_codesize,
        lzw_dec_writestr_snd_code, lzw_dec_writestr_snd_c, lzw_dec_writestr_snd_br,
        lzw_dec_addstr_fst, lzw_dec_addstr_snd_max, lzw_dec_addstr_snd_codesize,
        lzw_dec_addstr_snd_code, lzw_dec_addstr_snd_c, lzw_dec_addstr_snd_br,
        hmaxne, if_false] at hc
      by_cases hcode : s.code = NODE_NULL
      · simp only [hcode, eq_self_iff_true, if_true] at hc
        rw [if_neg (mod256_ne_NODE_NULL _)] at hc
        cases hc
        refine ⟨?_, ?_, ?_, ?_⟩
        · simp only [apply_ite DecState.max, apply_ite DecState.codesize, lzw_dec_reset_max,
            lzw_dec_addstr_snd_max, lzw_dec_addstr_snd_codesize, lzw_dec_writestr_snd_max,
            lzw_dec_writestr_snd_codesize, hmaxne, eq_self_iff_true, if_true, if_false, ite_self]
          split
          · rw [DICT_SIZE_eq]
            omega
          · rename_i hrc
            rw [DICT_SIZE_eq] at hmax hrc ⊢
            omega
        · simp only [apply_ite DecState.max, apply_ite DecState.codesize, lzw_dec_reset_max,
            lzw_dec_addstr_snd_max, lzw_dec_addstr_snd_codesize, lzw_dec_writestr_snd_max,
            lzw_dec_writestr_snd_codesize, hmaxne, eq_self_iff_true, if_true, if_false, ite_self]
          split
          · exact (lzw_dec_reset_codesize_bounds _).1
          · split <;> omega
        · simp only [apply_ite DecState.max, apply_ite DecState.codesize, lzw_dec_reset_max,
            lzw_dec_addstr_snd_max, lzw_dec_addstr_snd_codesize, lzw_dec_writestr_snd_max,
            lzw_dec_writestr_snd_codesize, hmaxne, eq_self_iff_true, if_true, if_false, ite_self]
          split
          · exact (lzw_dec_reset_codesize_bounds _).2
          · split
            · rename_i hw
              rw [one_shiftLeft_eq_pow] at hw
              have hc19 : s.codesize ≤ 19 := by
                apply codesize_le_19
                rw [DICT_SIZE_eq] at hmax ⊢
                omega
              omega
            · omega
        · intro hcd
          have hcd2 : nc = NODE_NULL := hcd
          rw [NODE_NULL_eq] at hcd2 hncNN
          exact absurd hcd2 (by omega)
      · simp only [hcode, if_false] at hc
        rw [if_neg hne1] at hc
        cases hc
        refine ⟨?_, ?_, ?_, ?_⟩
        · simp only [apply_ite DecState.max, apply_ite DecState.codesize, lzw_dec_reset_max,
            lzw_dec_addstr_snd_max, lzw_dec_addstr_snd_codesize, lzw_dec_writestr_snd_max,
            lzw_dec_writestr_snd_codesize, hmaxne, hcode, eq_self_iff_true, if_true, if_false,
            ite_self]
          split
          · rw [DICT_SIZE_eq]
            omega
          · rename_i hrc
            rw [DICT_SIZE_eq] at hmax hrc ⊢
            omega
        · simp only [apply_ite DecState.max, apply_ite DecState.codesize, lzw_dec_reset_max,
            lzw_dec_addstr_snd_max, lzw_dec_addstr_snd_codesize, lzw_dec_writestr_snd_max,
            lzw_dec_writestr_snd_codesize, hmaxne, hcode, eq_self_iff_true, if_true, if_false,
            ite_self]
          split
          · exact (lzw_dec_reset_codesize_bounds _).1
          · split <;> omega
        · simp only [apply_ite DecState.max, apply_ite DecState.codesize, lzw_dec_reset_max,
            lzw_dec_addstr_snd_max, lzw_dec_addstr_snd_codesize, lzw_dec_writestr_snd_max,
            lzw_dec_writestr_snd_codesize, hmaxne, hcode, eq_self_iff_true, if_true, if_false,
            ite_self]
          split
          · exact (lzw_dec_reset_codesize_bounds _).2
          · rename_i hrc
            split
            · rename_i hw
              rw [one_shiftLeft_eq_pow] at hw
              have hc19 : s.codesize ≤ 19 := by
                apply codesize_le_19
                rw [DICT_SIZE_eq] at hmax hrc ⊢
                omega
              omega
            · omega
        · intro hcd
          have hcd2 : nc = NODE_NULL := hcd
          rw [NODE_NULL_eq] at hcd2 hncNN
          exact absurd hcd2 (by omega)
    · rw [if_neg h1] at hc
      by_cases h2 : nc - 1 = s.max
      · rw [if_pos h2] at hc
        simp only [lzw_dec_writestr_snd_max, lzw_dec_writestr_snd_codesize,
          lzw_dec_writestr_snd_code, lzw_dec_writestr_snd_c, lzw_dec_writestr_snd_br,
          lzw_dec_addstr_fst, lzw_dec_addstr_snd_max, lzw_dec_addstr_snd_codesize,
          lzw_dec_addstr_snd_code, lzw_dec_addstr_snd_c, lzw_dec_addstr_snd_br,
          hmaxne, if_false] at hc
        have hnc1 : nc = s.max + 1 := by omega
        by_cases hcode : s.code = NODE_NULL
        · simp only [hcode, eq_self_iff_true, if_true] at hc
          have h255 : s.max = 255 := hcodeimp hcode
          by_cases hcnull : s.c = NODE_NULL
          · rw [if_pos hcnull] at hc
            exact DecRes.noConfusion hc
          · rw [if_neg hcnull] at hc
            cases hc
            refine ⟨?_, ?_, ?_, ?_⟩
            · simp only [apply_ite DecState.max, apply_ite DecState.codesize, lzw_dec_reset_max,
                lzw_dec_addstr_snd_max, lzw_dec_addstr_snd_codesize, lzw_dec_writestr_snd_max,
                lzw_dec_writestr_snd_codesize, hmaxne, eq_self_iff_true, if_true, if_false,
                ite_self]
              split
              · rw [DICT_SIZE_eq]
                omega
              · rename_i hrc
                rw [DICT_SIZE_eq] at hmax hrc ⊢
                omega
            · simp only [apply_ite DecState.max, apply_ite DecState.codesize, lzw_dec_reset_max,
                lzw_dec_addstr_snd_max, lzw_dec_addstr_snd_codesize, lzw_dec_writestr_snd_max,
                lzw_dec_writestr_snd_codesize, hmaxne, eq_self_iff_true, if_true, if_false,
                ite_self]
              split
              · exact (lzw_dec_reset_codesize_bounds _).1
              · split <;> omega
            · simp only [apply_ite DecState.max, apply_ite DecState.codesize, lzw_dec_reset_max,
                lzw_dec_addstr_snd_max, lzw_dec_addstr_snd_codesize, lzw_dec_writestr_snd_max,
                lzw_dec_writestr_snd_codesize, hmaxne, eq_self_iff_true, if_true, if_false,
                ite_self]
              split
              · exact (lzw_dec_reset_codesize_bounds _).2
              · split
                · rename_i hw
                  rw [one_shiftLeft_eq_pow] at hw
                  exact absurd (by omega : (2:Nat) ^ s.codesize = 257) (two_pow_ne_257 _)
                · omega
            · intro hcd
              have hcd2 : nc = NODE_NULL := hcd
              rw [NODE_NULL_eq] at hcd2 hncNN
              exact absurd hcd2 (by omega)
        · simp only [hcode, if_false] at hc
          rw [if_neg hne1] at hc
          cases hc
          refine ⟨?_, ?_, ?_, ?_⟩
          · simp only [apply_ite DecState.max, apply_ite DecState.codesize, lzw_dec_reset_max,
              lzw_dec_addstr_snd_max, lzw_dec_addstr_snd_codesize, lzw_dec_writestr_snd_max,
              lzw_dec_writestr_snd_codesize, hmaxne, hcode, eq_self_iff_true, if_true, if_false,
              ite_self]
            split
            · rw [DICT_SIZE_eq]
              omega
            · rename_i hrc
              rw [DICT_SIZE_eq] at hmax hrc ⊢
              omega
          · simp only [apply_ite DecState.max, apply_ite DecState.codesize, lzw_dec_reset_max,
              lzw_dec_addstr_snd_max, lzw_dec_addstr_snd_codesize, lzw_dec_writestr_snd_max,
              lzw_dec_writestr_snd_codesize, hmaxne, hcode, eq_self_iff_true, if_true, if_false,
              ite_self]
            split
            · exact (lzw_dec_reset_codesize_bounds _).1
            · split <;> omega
          · simp only [apply_ite DecState.max, apply_ite DecState.codesize, lzw_dec_reset_max,
              lzw_dec_addstr_snd_max, lzw_dec_addstr_snd_codesize, lzw_dec_writestr_snd_max,
              lzw_dec_writestr_snd_codesize, hmaxne, hcode, eq_self_iff_true, if_true, if_false,
              ite_self]
            split
            · exact (lzw_dec_reset_codesize_bounds _).2
            · rename_i hrc
              split
              · rename_i hw
                rw [one_shiftLeft_eq_pow] at hw
                have hc19 : s.codesize ≤ 19 := by
                  apply codesize_le_19
                  rw [DICT_SIZE_eq] at hmax hrc ⊢
                  omega
                omega
              · omega
          · intro hcd
            have hcd2 : nc = NODE_NULL := hcd
            rw [NODE_NULL_eq] at hcd2 hncNN
            exact absurd hcd2 (by omega)
      · rw [if_neg h2] at hc
        exact DecRes.noConfusion hc


lemma lzw_dec_reset_codesize_le9 (s : DecState) : (lzw_dec_reset s).codesize ≤ 9 := by
  rcases lzw_dec_reset_codesize s with hh | hh <;> omega

lemma lzw_decode_step_mono (s s1 : DecState) (h : DecInv s)
    (hc : lzw_decode_step s = .cont s1) :
    s.codesize ≤ s1.codesize ∨ (s1.max = 255 ∧ s1.codesize ≤ 9) := by
  obtain ⟨hmax, h8, h20, hcodeimp⟩ := h
  have hmaxne : s.max ≠ NODE_NULL := by
    rw [NODE_NULL_eq]
    rw [DICT_SIZE_eq] at hmax
    omega
  have hne1 : ¬ s.max + 1 = NODE_NULL := by
    rw [NODE_NULL_eq]
    rw [DICT_SIZE_eq] at hmax
    omega
  rcases hr : lzw_dec_readbits s.br s.codesize with ⟨ro, br1⟩
  cases ro with
  | none =>
    simp only [lzw_decode_step, hr] at hc
    exact DecRes.noConfusion hc
  | some nc =>
    simp only [lzw_decode_step, hr] at hc
    by_cases h1 : nc ≤ s.max
    · rw [if_pos h1] at hc
      simp only [lzw_dec_writestr_snd_max, lzw_dec_writestr_snd_codesize,
        lzw_dec_writestr_snd_code, lzw_dec_writestr_snd_c, lzw_dec_writestr_snd_br,
        lzw_dec_addstr_fst, lzw_dec_addstr_snd_max, lzw_dec_addstr_snd_codesize,
        lzw_dec_addstr_snd_code, lzw_dec_addstr_snd_c, lzw_dec_addstr_snd_br,
        hmaxne, if_false] at hc
      by_cases hcode : s.code = NODE_NULL
      · simp only [hcode, eq_self_iff_true, if_true] at hc
        rw [if_neg (mod256_ne_NODE_NULL _)] at hc
        cases hc
        simp only [apply_ite DecState.max, apply_ite DecState.codesize, lzw_dec_reset_max,
          lzw_dec_addstr_snd_max, lzw_dec_addstr_snd_codesize, lzw_dec_writestr_snd_max,
          lzw_dec_writestr_snd_codesize, hmaxne, eq_self_iff_true, if_true, if_false, ite_self]
        split
        · exact Or.inr ⟨rfl, lzw_dec_reset_codesize_le9 _⟩
        · left
          split <;> omega
      · simp only [hcode, if_false] at hc
        rw [if_neg hne1] at hc
        cases hc
        simp only [apply_ite DecState.max, apply_ite DecState.codesize, lzw_dec_reset_max,
          lzw_dec_addstr_snd_max, lzw_dec_addstr_snd_codesize, lzw_dec_writestr_snd_max,
          lzw_dec_writestr_snd_codesize, hmaxne, hcode, eq_self_iff_true, if_true, if_false,
          ite_self]
        split
        · exact Or.inr ⟨rfl, lzw_dec_reset_codesize_le9 _⟩
        · left
          split <;> omega
    · rw [if_neg h1] at hc
      by_cases h2 : nc - 1 = s.max
      · rw [if_pos h2] at hc
        simp only [lzw_dec_writestr_snd_max, lzw_dec_writestr_snd_codesize,
          lzw_dec_writestr_snd_code, lzw_dec_writestr_snd_c, lzw_dec_writestr_snd_br,
          lzw_dec_addstr_fst, lzw_dec_addstr_snd_max, lzw_dec_addstr_snd_codesize,
          lzw_dec_addstr_snd_code, lzw_dec_addstr_snd_c, lzw_dec_addstr_snd_br,
          hmaxne, if_false] at hc
        by_cases hcode : s.code = NODE_NULL
        · simp only [hcode, eq_self_iff_true, if_true] at hc
          by_cases hcnull : s.c = NODE_NULL
          · rw [if_pos hcnull] at hc
            exact DecRes.noConfusion hc
          · rw [if_neg hcnull] at hc
            cases hc
            simp only [apply_ite DecState.max, apply_ite DecState.codesize, lzw_dec_reset_max,
              lzw_dec_addstr_snd_max, lzw_dec_addstr_snd_codesize, lzw_dec_writestr_snd_max,
              lzw_dec_writestr_snd_codesize, hmaxne, eq_self_iff_true, if_true, if_false,
              ite_self]
            split
            · exact Or.inr ⟨rfl, lzw_dec_reset_codesize_le9 _⟩
            · left
              split <;> omega
        · simp only [hcode, if_false] at hc
          rw [if_neg hne1] at hc
          cases hc
          simp only [apply_ite DecState.max, apply_ite DecState.codesize, lzw_dec_reset_max,
            lzw_dec_addstr_snd_max, lzw_dec_addstr_snd_codesize, lzw_dec_writestr_snd_max,
            lzw_dec_writestr_snd_codesize, hmaxne, hcode, eq_self_iff_true, if_true, if_false,
            ite_self]
          split
          · exact Or.inr ⟨rfl, lzw_dec_reset_codesize_le9 _⟩
          · left
            split <;> omega
      · rw [if_neg h2] at hc
        exact DecRes.noConfusion hc

lemma lzw_decode_step_done_ne (s : DecState) (r : Int) (s1 : DecState)
    (h : lzw_decode_step s = .done r s1) : r ≠ LZW_ERR_INPUT_BUF := by
  rcases hr : lzw_dec_readbits s.br s.codesize with ⟨ro, br1⟩
  cases ro with
  | none =>
    have heof := lzw_dec_readbits_none_eof s.br s.codesize (by rw [hr])
    rw [hr] at heof
    simp only [lzw_decode_step, hr] at h
    rw [if_neg (not_not_intro heof)] at h
    cases h
    simp only [LZW_ERR_INPUT_BUF]
    omega
  | some nc =>
    intro hco
    subst hco
    simp only [lzw_decode_step, hr] at h
    repeat' split at h
    all_goals
      first
      | exact DecRes.noConfusion h
      | (injection h with h1 h2
         exact absurd h1 (by decide))

lemma lzw_decode_loop_ne_inputbuf (fuel : Nat) :
    ∀ s : DecState, (lzw_decode_loop fuel s).1 ≠ LZW_ERR_INPUT_BUF := by
  induction fuel with
  | zero =>
    intro s
    simp only [lzw_decode_loop, LZW_ERR_INPUT_BUF]
    omega
  | succ fuel ih =>
    intro s
    have hun : lzw_decode_loop (fuel + 1) s =
        match lzw_decode_step s with
        | .cont s2 => lzw_decode_loop fuel s2
        | .done r s2 => (r, s2) := rfl
    rcases hstep : lzw_decode_step s with s1 | ⟨r, s1⟩
    · rw [hun, hstep]
      exact ih s1
    · rw [hun, hstep]
      exact lzw_decode_step_done_ne s r s1 hstep

lemma lzw_decode_buf_ne_inputbuf (s : DecState) (buf : List Nat) :
    (lzw_decode_buf s buf).1 ≠ LZW_ERR_INPUT_BUF := by
  rw [lzw_decode_buf]
  split
  · show (0 : Int) ≠ LZW_ERR_INPUT_BUF
    decide
  · exact lzw_decode_loop_ne_inputbuf _ _


lemma rVal_mkReader (bytes : List Nat) : rVal (mkReader bytes) = byteVal bytes := by
  simp [rVal, mkReader, rRem]

lemma rLen_mkReader (bytes : List Nat) : rLen (mkReader bytes) = 8 * bytes.length := by
  simp [rLen, mkReader, rRem]

lemma rWF_mkReader (bytes : List Nat) (h : ∀ b ∈ bytes, b < 256) : rWF (mkReader bytes) :=
  ⟨h, rfl, Nat.zero_le _⟩

set_option maxHeartbeats 1600000 in
/-- Claim C1: the round trip `decode (encode S) = S` fails already for the
one-byte input `S = [0x41]`: the encoder emits the bytes `0x00 0x41` and the
decoder recovers `[0x00]`, not `[0x41]`. -/
theorem claim_C1 :
    encodeBytes [65] = [0, 65] ∧
    (lzw_decode_buf lzw_dec_init (encodeBytes [65])).2.out = [0] ∧
    (lzw_decode_buf lzw_dec_init (encodeBytes [65])).2.out ≠ [65] := by
  decide

set_option maxHeartbeats 1600000 in
/-- Claim C2: in the coupled run on the input `[0x41]` the two `max` values
agree (both 255) but the encoder finishes at code width 8 while the decoder
finishes at code width 9, so the widths are not equal after each code. -/
theorem claim_C2 :
    (lzw_encode_buf lzw_enc_init [65]).max
        = (lzw_decode_buf lzw_dec_init (encodeBytes [65])).2.max ∧
    (lzw_encode_buf lzw_enc_init [65]).codesize = 8 ∧
    (lzw_decode_buf lzw_dec_init (encodeBytes [65])).2.codesize = 9 ∧
    (lzw_encode_buf lzw_enc_init [65]).codesize
        ≠ (lzw_decode_buf lzw_dec_init (encodeBytes [65])).2.codesize := by
  decide

/-- Claim C3 (amended): encoding the single byte 0x41 emits two 8-bit codes —
the initial `NONE` prefix `NODE_NULL` truncated to 8 bits, then 0x41 — so the
output stream is the two bytes `0x00 0x41`. -/
theorem claim_C3 : encodeBytes [65] = [0, 65] := by
  decide

/-- Counterexample to claim C3 as stated: the output of encoding `[0x41]` is
`0x00 0x41`, not the claimed `0x20 0x80`. -/
theorem claim_C3_cex :
    encodeBytes [65] = [0, 65] ∧ encodeBytes [65] ≠ [32, 128] := by
  decide

/-- Claim C4 (amended): immediately after init and after every reset the code
width is 8 (not 9) and `max` is 255, on the encoder and on the decoder; the
decoder's reset additionally reads one code at width 8 and only then moves to
width 9. -/
theorem claim_C4 :
    lzw_enc_init.codesize = 8 ∧ lzw_enc_init.max = 255 ∧
    lzw_dec_init.codesize = 8 ∧ lzw_dec_init.max = 255 ∧
    (∀ s : EncState, (lzw_enc_reset s).codesize = 8 ∧ (lzw_enc_reset s).max = 255) ∧
    (∀ s : DecState, (lzw_dec_reset s).max = 255 ∧
      ((lzw_dec_reset s).codesize = 8 ∨ (lzw_dec_reset s).codesize = 9)) :=
  ⟨rfl, rfl, rfl, rfl, fun _ => ⟨rfl, rfl⟩,
   fun s => ⟨lzw_dec_reset_max s, lzw_dec_reset_codesize s⟩⟩

/-- Counterexample to claim C4 as stated: both contexts initialise the code
width to 8, not to the claimed 9. -/
theorem claim_C4_cex :
    lzw_enc_init.codesize = 8 ∧ lzw_enc_init.codesize ≠ 9 ∧
    lzw_dec_init.codesize = 8 ∧ lzw_dec_init.codesize ≠ 9 := by
  decide

/-- Claim C5 (amended): writing any sequence of `(code, width)` pairs with
widths 1..24 and codes below `2 ^ width`, then flushing, yields a byte stream
from which `lzw_dec_readbits` at the same widths returns exactly the original
codes — provided the total bit count is not 4 modulo 8, the case in which
`lzw_enc_flushbits` (testing `bb.n & 3`) drops the residual bits. -/
theorem claim_C5 (L : List (Nat × Nat))
    (hL : ∀ p ∈ L, 1 ≤ p.2 ∧ p.2 ≤ 24 ∧ p.1 < 2 ^ p.2)
    (hs : codesLen L % 8 ≠ 4) :
    readCodes (L.map Prod.snd)
        (mkReader (lzw_enc_flushbits (writeAll L ⟨0, 0, []⟩)).out)
      = some (L.map Prod.fst) := by
  obtain ⟨e1, e2, e3⟩ := encode_stream_spec L (fun p hp => (hL p hp).2.1) hs
  refine readCodes_spec L _ ((8 - codesLen L % 8) % 8) ?_ hL ?_ ?_ ?_ ?_
  · have := Nat.mod_lt (8 - codesLen L % 8) (show 0 < 8 by omega)
    omega
  · exact Nat.zero_le 7
  · exact rWF_mkReader _ e3
  · rw [rVal_mkReader]
    exact e1
  · rw [rLen_mkReader]
    exact e2

/-- Witness for claim C5: the single 9-bit code 0x41 round-trips through
write, flush and read. -/
theorem claim_C5_witness :
    (∀ p ∈ [((65 : Nat), (9 : Nat))], 1 ≤ p.2 ∧ p.2 ≤ 24 ∧ p.1 < 2 ^ p.2) ∧
    codesLen [((65 : Nat), (9 : Nat))] % 8 ≠ 4 ∧
    readCodes ([((65 : Nat), (9 : Nat))].map Prod.snd)
        (mkReader (lzw_enc_flushbits (writeAll [((65 : Nat), (9 : Nat))] ⟨0, 0, []⟩)).out)
      = some [65] :=
  ⟨by decide, by decide, claim_C5 [(65, 9)] (by decide) (by decide)⟩

/-- Counterexample to claim C5 as stated: one 4-bit code (width within 1..24)
is lost — after write and flush the reader finds no complete code at all. -/
theorem claim_C5_cex :
    readCodes [4] (mkReader (lzw_enc_flushbits (writeAll [(15, 4)] ⟨0, 0, []⟩)).out)
      = none := by
  decide

/-- Claim C6 (amended): for a residual bit count `bn ≤ 7` other than 4,
`lzw_enc_flushbits` zero-pads the buffered bits to the next byte boundary and
emits them: the emitted stream's value is the buffered value shifted left by
the pad amount (all pad bits zero) and its bit length is the padded total.
With `bn = 4` the guard `bb.n & 3` is zero and the four bits are dropped. -/
theorem claim_C6 (s : BitWriter) (hbn : s.bn ≤ 7) (hout : ∀ b ∈ s.out, b < 256)
    (h4 : s.bn ≠ 4) :
    byteVal (lzw_enc_flushbits s).out = wVal s * 2 ^ ((8 - s.bn) % 8) ∧
    8 * (lzw_enc_flushbits s).out.length = wLen s + (8 - s.bn) % 8 := by
  obtain ⟨f1, f2, -⟩ := lzw_enc_flushbits_spec s hbn hout h4
  exact ⟨f1, f2⟩

/-- Witness for claim C6: a single buffered 1-bit is flushed as the byte
0x80. -/
theorem claim_C6_witness :
    byteVal (lzw_enc_flushbits (⟨1, 1, []⟩ : BitWriter)).out
        = wVal (⟨1, 1, []⟩ : BitWriter)
            * 2 ^ ((8 - (⟨1, 1, []⟩ : BitWriter).bn) % 8) ∧
    8 * (lzw_enc_flushbits (⟨1, 1, []⟩ : BitWriter)).out.length
        = wLen (⟨1, 1, []⟩ : BitWriter) + (8 - (⟨1, 1, []⟩ : BitWriter).bn) % 8 :=
  claim_C6 ⟨1, 1, []⟩ (by decide) (by decide) (by decide)

/-- Counterexample to claim C6 as stated: with 4 residual bits the flush
emits nothing and the bits stay in the accumulator. -/
theorem claim_C6_cex :
    (lzw_enc_flushbits (⟨15, 4, []⟩ : BitWriter)).out = [] ∧
    (lzw_enc_flushbits (⟨15, 4, []⟩ : BitWriter)).bn = 4 := by
  decide

/-- Claim C7: one step of either side keeps the context invariant (so the
width, used for the next write or read, never exceeds `MAX_WIDTH = 20`), and
the width never decreases except at a dictionary reset, which returns it to
the base width (8, or 9 after the decoder reset's embedded read). -/
theorem claim_C7 :
    (∀ (s : EncState) (b : Nat), EncInv s →
      EncInv (lzw_encode_step s b) ∧
        (s.codesize ≤ (lzw_encode_step s b).codesize ∨
          ((lzw_encode_step s b).max = 255 ∧ (lzw_encode_step s b).codesize = 8))) ∧
    (∀ (s s1 : DecState), DecInv s → lzw_decode_step s = DecRes.cont s1 →
      DecInv s1 ∧ (s.codesize ≤ s1.codesize ∨ (s1.max = 255 ∧ s1.codesize ≤ 9))) :=
  ⟨fun s b h => ⟨lzw_encode_step_inv s b h, lzw_encode_step_mono s b⟩,
   fun s s1 h hc => ⟨lzw_decode_step_inv s h s1 hc, lzw_decode_step_mono s s1 h hc⟩⟩

/-- Claim C8: when a code `nc` is read (dictionary not in the overflow corner,
`c` a byte), the decoder's pass returns `LZW_ERR_WRONG_CODE` exactly when
`nc > max + 1`; any `nc ≤ max + 1` — including the K-omega-K code
`nc = max + 1` — continues the loop. -/
theorem claim_C8 (s : DecState) (nc : Nat) (br1 : BitReader)
    (hr : lzw_dec_readbits s.br s.codesize = (some nc, br1))
    (hmax : s.max + 1 < NODE_NULL) (hc : s.c < 256) :
    ((∃ s1, lzw_decode_step s = DecRes.done LZW_ERR_WRONG_CODE s1) ↔ s.max + 1 < nc) ∧
    (nc ≤ s.max + 1 → ∃ s1, lzw_decode_step s = DecRes.cont s1) := by
  have hmaxne : s.max ≠ NODE_NULL := by omega
  have hne1 : ¬ s.max + 1 = NODE_NULL := by omega
  have hcne : s.c ≠ NODE_NULL := by rw [NODE_NULL_eq]; omega
  simp only [lzw_decode_step, hr]
  by_cases h1 : nc ≤ s.max
  · rw [if_pos h1]
    simp only [lzw_dec_writestr_snd_max, lzw_dec_writestr_snd_codesize,
      lzw_dec_writestr_snd_code, lzw_dec_writestr_snd_c, lzw_dec_writestr_snd_br,
      lzw_dec_addstr_fst, hmaxne, if_false]
    by_cases hcode : s.code = NODE_NULL
    · simp only [hcode, eq_self_iff_true, if_true]
      rw [if_neg (mod256_ne_NODE_NULL _)]
      refine ⟨⟨?_, ?_⟩, ?_⟩
      · rintro ⟨s1, hdone⟩
        exact DecRes.noConfusion hdone
      · intro hgt
        omega
      · intro _
        exact ⟨_, rfl⟩
    · simp only [hcode, if_false]
      rw [if_neg hne1]
      refine ⟨⟨?_, ?_⟩, ?_⟩
      · rintro ⟨s1, hdone⟩
        exact DecRes.noConfusion hdone
      · intro hgt
        omega
      · intro _
        exact ⟨_, rfl⟩
  · rw [if_neg h1]
    by_cases h2 : nc - 1 = s.max
    · rw [if_pos h2]
      simp only [lzw_dec_addstr_fst, hmaxne, if_false]
      by_cases hcode : s.code = NODE_NULL
      · simp only [hcode, eq_self_iff_true, if_true]
        rw [if_neg hcne]
        refine ⟨⟨?_, ?_⟩, ?_⟩
        · rintro ⟨s1, hdone⟩
          exact DecRes.noConfusion hdone
        · intro hgt
          omega
        · intro _
          exact ⟨_, rfl⟩
      · simp only [hcode, if_false]
        rw [if_neg hne1]
        refine ⟨⟨?_, ?_⟩, ?_⟩
        · rintro ⟨s1, hdone⟩
          exact DecRes.noConfusion hdone
        · intro hgt
          omega
        · intro _
          exact ⟨_, rfl⟩
    · rw [if_neg h2]
      refine ⟨⟨?_, ?_⟩, ?_⟩
      · intro _
        omega
      · intro _
        exact ⟨_, rfl⟩
      · intro hle
        exact absurd (by omega : nc - 1 = s.max) h2

/-- Witness for claim C8: reading the code 0 with a fresh dictionary
continues the loop. -/
theorem claim_C8_witness :
    ∃ s1, lzw_decode_step (lzw_decode_start lzw_dec_init [0, 0]) = DecRes.cont s1 :=
  (claim_C8 (lzw_decode_start lzw_dec_init [0, 0]) 0
      ((lzw_dec_readbits (lzw_decode_start lzw_dec_init [0, 0]).br
        (lzw_decode_start lzw_dec_init [0, 0]).codesize).2)
      rfl (by decide) (by decide)).2 (by decide)

/-- Claim C9 (amended): `lzw_decode_buf` never returns `LZW_ERR_INPUT_BUF`:
`lzw_dec_readbits` reports EOF only with the input fully consumed
(`lzwn == lzwm`), so the guarded error branch is dead, and a stream truncated
mid-code ends as if it were clean EOF, returning the processed byte count. -/
theorem claim_C9 (s : DecState) (buf : List Nat) :
    (lzw_decode_buf s buf).1 ≠ LZW_ERR_INPUT_BUF :=
  lzw_decode_buf_ne_inputbuf s buf

/-- Witness for claim C9 at a concrete truncated stream. -/
theorem claim_C9_witness :
    ((lzw_decode_buf lzw_dec_init [0, 65]).1 = LZW_ERR_INPUT_BUF) = False :=
  eq_false (claim_C9 lzw_dec_init [0, 65])

set_option maxHeartbeats 1600000 in
/-- Counterexample to claim C9 as stated: the stream `0x00 0x41` is truncated
(8 trailing bits cannot form the expected 9-bit code), yet decoding returns
the processed count 2, not `LZW_ERR_INPUT_BUF`. -/
theorem claim_C9_cex :
    (lzw_decode_buf lzw_dec_init [0, 65]).1 = 2 ∧
    (lzw_decode_buf lzw_dec_init [0, 65]).1 ≠ LZW_ERR_INPUT_BUF := by
  decide

/-- Claim C10: under checked indexing against `node dict[DICT_SIZE]`, both
init routines fail — each ends by writing entry `NODE_NULL = DICT_SIZE`, one
past the end of the array — so the out-of-bounds branch is reachable and the
claimed bound does not hold. -/
theorem claim_C10 :
    lzw_enc_init_checked.isNone = true ∧ lzw_dec_init_checked.isNone = true :=
  ⟨rfl, rfl⟩


end Clzw
